import Mathlib

/-!
# Daemon addressing and client bootstrap

A shallow embedding of `cli/internal/daemon/daemon.go`: the repository
discriminator (`getRepoHash`), the socket / pid / log paths derived from it,
the rewrite of the running executable's path to the public wrapper, and the
hand-over to the connector in `GetClient`.

Go strings are byte sequences, so a string is a list of bytes here and `len`
is `List.length`.  The Go standard library functions the file calls
(`hex.EncodeToString`, `strings.HasSuffix`, `filepath.Clean`, `filepath.Join`,
`filepath.Dir`, `filepath.Base`) are transcribed in their Unix form
(`Separator = '/'`, no volume names).  `sha256.Sum256`, the directory
providers, `os.Executable` and the connector are parameters.
-/

namespace Daemon

set_option maxRecDepth 20000

/-! ## Strings -/

/-- One byte. -/
abbrev Byte := Fin 256

/-- A Go `string`: an immutable sequence of bytes. -/
abbrev GoString := List Byte

/-- A Go string literal: the UTF-8 bytes of the text. -/
def lit (s : String) : GoString :=
  (s.toList.flatMap String.utf8EncodeChar).map (fun b => b.val)

/-- `os.PathSeparator` / `filepath.Separator` on Unix: `'/'`. -/
def Separator : Byte := 47

/-- The byte `'.'`. -/
def dot : Byte := 46

/-- `os.IsPathSeparator(c)` on Unix: `PathSeparator == c`. -/
def IsPathSeparator (c : Byte) : Bool := decide (Separator = c)

/-- `!os.IsPathSeparator(c)`, the test of the scanning loops. -/
def notSep (c : Byte) : Bool := !IsPathSeparator c

/-- `strings.HasSuffix(s, suffix)`:
`len(s) >= len(suffix) && s[len(s)-len(suffix):] == suffix`. -/
def HasSuffix (s suffix : GoString) : Bool :=
  decide (s.length ≥ suffix.length) && decide (s.drop (s.length - suffix.length) = suffix)

/-- `strings.HasPrefix(s, prefix)`:
`len(s) >= len(prefix) && s[:len(prefix)] == prefix`. -/
def HasPrefix (s pre : GoString) : Bool :=
  decide (s.length ≥ pre.length) && decide (s.take pre.length = pre)

/-! ## encoding/hex -/

/-- `const hextable = "0123456789abcdef"`. -/
def hextable : GoString := lit "0123456789abcdef"

/-- `hextable[i]` for an index in range. -/
def hexDigit (i : Nat) (h : i < 16) : Byte :=
  hextable.get ⟨i, h⟩

/-- `hex.Encode`: every source byte `v` yields `hextable[v>>4]` followed by
`hextable[v&0x0f]`. -/
def Encode : List Byte → GoString
  | [] => []
  | v :: src =>
    hexDigit (v.val >>> 4) (by have h := v.isLt; rw [Nat.shiftRight_eq_div_pow]; omega)
      :: hexDigit (v.val &&& 0x0f) (Nat.lt_of_le_of_lt Nat.and_le_right (by decide))
      :: Encode src

/-- `hex.EncodeToString(src)`. -/
def EncodeToString (src : List Byte) : GoString := Encode src

/-! ## crypto/sha256 -/

/-- The value of `sha256.Sum256`: an array `[32]byte`. -/
structure Digest where
  bytes : List Byte
  size : bytes.length = 32

/-! ## path/filepath (Unix) -/

/-- The write side of `lazybuf` in `Clean`: `out` is `buf[:w]` (so `w` is
`out.length`), `dotdot` is the index where `..` must stop. -/
structure CleanState where
  out : List Byte
  dotdot : Nat
deriving DecidableEq, Repr

/-- `r+1 == n || os.IsPathSeparator(path[r+1])`, on the bytes that follow. -/
def endOrSep : List Byte → Bool
  | [] => true
  | c :: _ => IsPathSeparator c

/-- The inner loop of the `..` case of `Clean`, started after `out.w--`:
`for out.w > dotdot && !os.IsPathSeparator(out.index(out.w)) { out.w-- }`;
returns the final `w`.  The index read is below the old length of `buf`. -/
def backtrack (buf : List Byte) (dotdot : Nat) : Nat → Nat
  | 0 => 0
  | w + 1 =>
    if decide (w + 1 > dotdot) && !IsPathSeparator (buf.getD (w + 1) 0) then
      backtrack buf dotdot w
    else w + 1

/-- The `..` case of `Clean` after `r += 2`: backtrack to the last separator
when `out.w > dotdot`; otherwise, when not rooted, append a `..` element and
move `dotdot` up; otherwise nothing. -/
def dotdotElem (rooted : Bool) (st : CleanState) : CleanState :=
  if st.out.length > st.dotdot then
    { st with out := st.out.take (backtrack st.out st.dotdot (st.out.length - 1)) }
  else if !rooted then
    let out1 := if st.out.length > 0 then st.out ++ [Separator] else st.out
    let out2 := out1 ++ [dot, dot]
    { out := out2, dotdot := out2.length }
  else st

/-- The `default` case of `Clean` ("real path element"), on the unread input
`rest = path[r:]`: add a slash if needed, then copy bytes up to the next
separator. -/
def realElem (rooted : Bool) (rest : List Byte) (st : CleanState) : CleanState :=
  let out1 :=
    if (rooted && st.out.length != 1) || (!rooted && st.out.length != 0) then
      st.out ++ [Separator]
    else st.out
  { st with out := out1 ++ rest.takeWhile notSep }

/-- The main loop `for r < n { switch ... }` of `Clean` on the unread input
`path[r:]`.  Every iteration reads at least one byte, so a fuel equal to the
length of the unread input is never exhausted (`cleanLoop_fuel`). -/
def cleanLoop (rooted : Bool) : Nat → List Byte → CleanState → CleanState
  | 0, _, st => st
  | _ + 1, [], st => st
  | fuel + 1, c :: rest, st =>
    if IsPathSeparator c then
      cleanLoop rooted fuel rest st
    else if decide (c = dot) && endOrSep rest then
      cleanLoop rooted fuel rest st
    else if decide (c = dot) && decide (rest.head? = some dot) && endOrSep rest.tail then
      cleanLoop rooted fuel rest.tail (dotdotElem rooted st)
    else
      cleanLoop rooted fuel ((c :: rest).dropWhile notSep)
        (realElem rooted (c :: rest) st)

/-- `filepath.Clean` (no volume name, `FromSlash` is the identity): the empty
path becomes `"."`; a leading separator is written first and `..` cannot cross
it; an empty result becomes `"."`. -/
def Clean (path : GoString) : GoString :=
  match path with
  | [] => [dot]
  | c :: rest =>
    let rooted := IsPathSeparator c
    let st :=
      if rooted then cleanLoop rooted rest.length rest ⟨[Separator], 1⟩
      else cleanLoop rooted (c :: rest).length (c :: rest) ⟨[], 0⟩
    if st.out.length = 0 then [dot] else st.out

/-- `strings.Join(elems, sep)`. -/
def stringsJoin (sep : GoString) : List GoString → GoString
  | [] => []
  | [e] => e
  | e :: es => e ++ sep ++ stringsJoin sep es

/-- `filepath.Join(elem...)`: from the first non-empty element on, the elements
are joined with the separator and the result is cleaned; `""` when every
element is empty. -/
def Join : List GoString → GoString
  | [] => []
  | e :: elem => if e ≠ [] then Clean (stringsJoin [Separator] (e :: elem)) else Join elem

/-- `path[:i+1]` where `i` is the index of the last separator of `path`
(`-1` when there is none), as computed by the backward scan of `Dir` and
`Split`. -/
def uptoLastSep (path : GoString) : GoString :=
  (path.reverse.dropWhile notSep).reverse

/-- `path[i+1:]` for the same `i`. -/
def afterLastSep (path : GoString) : GoString :=
  (path.reverse.takeWhile notSep).reverse

/-- `filepath.Dir(path)`: `Clean(path[:i+1])`. -/
def Dir (path : GoString) : GoString := Clean (uptoLastSep path)

/-- `filepath.Split(path)`: `(path[:i+1], path[i+1:])`, directory and file name
component. -/
def Split (path : GoString) : GoString × GoString := (uptoLastSep path, afterLastSep path)

/-- `filepath.Base(path)`: `"."` for the empty path; trailing separators are
stripped, then the last element is taken; a path of separators only gives the
separator. -/
def Base (path : GoString) : GoString :=
  if path = [] then [dot]
  else
    let stripped := (path.reverse.dropWhile IsPathSeparator).reverse
    let last := afterLastSep stripped
    if last = [] then [Separator] else last

/-- `filepath.IsAbs(path)` on Unix: `strings.HasPrefix(path, "/")`. -/
def IsAbs (path : GoString) : Bool := HasPrefix path (lit "/")

/-! ## turbopath -/

/-- `type AbsoluteSystemPath string`. -/
abbrev AbsoluteSystemPath := GoString

/-- `AbsoluteSystemPath.ToString`: the underlying string. -/
def AbsoluteSystemPath.ToString (p : AbsoluteSystemPath) : GoString := p

/-- Modelled from the spec: `turbopath.AbsoluteSystemPath.UntypedJoin` is
declared outside the source file; the layout `<directory>/<element>` of the
specification is the receiver joined with the additional elements,
`filepath.Join(p.ToString(), filepath.Join(additional...))`. -/
def AbsoluteSystemPath.UntypedJoin (p : AbsoluteSystemPath) (additional : List GoString) :
    AbsoluteSystemPath :=
  Join [p.ToString, Join additional]

/-- Modelled from the spec: `turbopath.AbsoluteSystemPath.Base` is declared
outside the source file; `repoBaseName` is the last element of the path,
`filepath.Base(p.ToString())`. -/
def AbsoluteSystemPath.Base (p : AbsoluteSystemPath) : GoString :=
  Daemon.Base p.ToString

/-! ## daemon.go -/

/-- What the path functions of daemon.go read from outside the file:
`sha256.Sum256`, `fs.TempDir(subDir)` and `fs.GetTurboDataDir()`. -/
structure Env where
  Sum256 : List Byte → Digest
  TempDir : GoString → AbsoluteSystemPath
  GetTurboDataDir : AbsoluteSystemPath

/-- `getRepoHash`: `hex.EncodeToString(pathHash[:])[:16]` where
`pathHash := sha256.Sum256([]byte(repoRoot.ToString()))`.  The slice `[:16]`
is in range because the encoded digest has 64 bytes
(`EncodeToString_digest_length`). -/
def getRepoHash (env : Env) (repoRoot : AbsoluteSystemPath) : GoString :=
  let pathHash := env.Sum256 repoRoot.ToString
  (EncodeToString pathHash.bytes).take 16

/-- `getDaemonFileRoot`. -/
def getDaemonFileRoot (env : Env) (repoRoot : AbsoluteSystemPath) : AbsoluteSystemPath :=
  let tempDir := env.TempDir (lit "turbod")
  let hexHash := getRepoHash env repoRoot
  tempDir.UntypedJoin [hexHash]

/-- `fmt.Sprintf("%v-%v.log", hexHash, base)` on two strings. -/
def logFilename (hexHash base : GoString) : GoString :=
  hexHash ++ lit "-" ++ base ++ lit ".log"

/-- `getLogFilePath`: the path and the error, which is always `nil`. -/
def getLogFilePath (Error : Type) (env : Env) (repoRoot : AbsoluteSystemPath) :
    AbsoluteSystemPath × Option Error :=
  let hexHash := getRepoHash env repoRoot
  let base := repoRoot.Base
  let logFilename := logFilename hexHash base
  let logsDir := env.GetTurboDataDir.UntypedJoin [lit "logs"]
  (logsDir.UntypedJoin [logFilename], none)

/-- `getUnixSocket`. -/
def getUnixSocket (env : Env) (repoRoot : AbsoluteSystemPath) : AbsoluteSystemPath :=
  let root := getDaemonFileRoot env repoRoot
  root.UntypedJoin [lit "turbod.sock"]

/-- `getPidFile`. -/
def getPidFile (env : Env) (repoRoot : AbsoluteSystemPath) : AbsoluteSystemPath :=
  let root := getDaemonFileRoot env repoRoot
  root.UntypedJoin [lit "turbod.pid"]

/-- The binary resolution step of `GetClient` (the `if` / `else if` on
`strings.HasSuffix(bin, ...)`): route the Go binary back to the wrapper. -/
def resolveBin (bin : GoString) : GoString :=
  if HasSuffix bin (lit "go-turbo") then
    Join [Dir bin, lit "turbo"]
  else if HasSuffix bin (lit "go-turbo.exe") then
    Join [Dir bin, lit "turbo.exe"]
  else bin

/-- `connector.Connector`, the fields that `GetClient` sets. -/
structure Connector (Logger Opts : Type) where
  Logger : Logger
  Bin : GoString
  Opts : Opts
  SockPath : AbsoluteSystemPath
  PidPath : AbsoluteSystemPath
  LogPath : AbsoluteSystemPath
  TurboVersion : GoString

/-- What `GetClient` calls outside the file besides `Env`: `os.Executable()`
(a path and an error), `logger.Named(name)` and the connector's
`c.Connect(ctx)` (a client pointer and an error). -/
structure Host (Logger Opts Client Context Error : Type) where
  Executable : GoString × Option Error
  Named : Logger → GoString → Logger
  Connect : Context → Connector Logger Opts → Option Client × Option Error

/-- A run of `GetClient`: the returned pair `(*Client, error)` and the calls
made to the connector's `Connect`, in order, each with its context and
receiver. -/
structure Run (Logger Opts Client Context Error : Type) where
  client : Option Client
  err : Option Error
  connectCalls : List (Context × Connector Logger Opts)

/-- The body of `GetClient` from the results of the two fallible resolution
steps on: `logRes` is what `getLogFilePath(repoRoot)` returned and `exeRes`
what `os.Executable()` returned. -/
def GetClientFrom {Logger Opts Client Context Error : Type}
    (host : Host Logger Opts Client Context Error)
    (sockPath pidPath : AbsoluteSystemPath)
    (logRes : AbsoluteSystemPath × Option Error) (exeRes : GoString × Option Error)
    (ctx : Context) (logger : Logger) (turboVersion : GoString) (opts : Opts) :
    Run Logger Opts Client Context Error :=
  match logRes.2 with
  | some err => ⟨none, some err, []⟩
  | none =>
    match exeRes.2 with
    | some err => ⟨none, some err, []⟩
    | none =>
      let bin := resolveBin exeRes.1
      let c : Connector Logger Opts :=
        { Logger := host.Named logger (lit "TurbodClient")
          Bin := bin
          Opts := opts
          SockPath := sockPath
          PidPath := pidPath
          LogPath := logRes.1
          TurboVersion := turboVersion }
      let r := host.Connect ctx c
      ⟨r.1, r.2, [(ctx, c)]⟩

/-- `GetClient`. -/
def GetClient {Logger Opts Client Context Error : Type} (env : Env)
    (host : Host Logger Opts Client Context Error)
    (ctx : Context) (repoRoot : AbsoluteSystemPath) (logger : Logger)
    (turboVersion : GoString) (opts : Opts) : Run Logger Opts Client Context Error :=
  let sockPath := getUnixSocket env repoRoot
  let pidPath := getPidFile env repoRoot
  GetClientFrom host sockPath pidPath (getLogFilePath Error env repoRoot) host.Executable
    ctx logger turboVersion opts

/-! ## Specification-side definitions -/

/-- The discriminator as the specification words it: the hexadecimal encoding
of the first 8 bytes of the digest of the path's bytes. -/
def discriminatorSpec (env : Env) (repoRoot : AbsoluteSystemPath) : GoString :=
  EncodeToString ((env.Sum256 repoRoot.ToString).bytes.take 8)

/-- The lowercase hexadecimal digits `0-9`, `a-f`. -/
def isLowerHex (c : Byte) : Bool :=
  (decide (48 ≤ c.val) && decide (c.val ≤ 57)) || (decide (97 ≤ c.val) && decide (c.val ≤ 102))

/-- The file name of a path: the file name component of `filepath.Split`. -/
def fileName (path : GoString) : GoString := (Split path).2

/-! ## Definitions used in the proofs -/

/-- The loop of `Clean` with exactly the fuel the unread input needs. -/
def run (rooted : Bool) (input : List Byte) (st : CleanState) : CleanState :=
  cleanLoop rooted input.length input st

/-- A real path element: not empty, no separator, neither `.` nor `..`. -/
def IsName (N : GoString) : Prop :=
  N ≠ [] ∧ (∀ b ∈ N, IsPathSeparator b = false) ∧ N ≠ [dot] ∧ N ≠ [dot, dot]

instance (N : GoString) : Decidable (IsName N) := by
  unfold IsName; infer_instance

/-- The state of `Clean` before its loop. -/
def initState (rooted : Bool) : CleanState :=
  if rooted then ⟨[Separator], 1⟩ else ⟨[], 0⟩

/-- The states the loop of `Clean` can be in: the initial one, a state extended
by a real element, and (not rooted, nothing to backtrack over) a state extended
by a `..` element. -/
inductive Canon (rooted : Bool) : CleanState → Prop
  | init : Canon rooted (initState rooted)
  | name (st : CleanState) (N : GoString) :
      Canon rooted st → IsName N → Canon rooted (realElem rooted N st)
  | up (st : CleanState) :
      Canon rooted st → rooted = false → st.out.length ≤ st.dotdot →
      Canon rooted (dotdotElem rooted st)

/-- The separator that the `default` case writes before the element. -/
def sepIf (rooted : Bool) (st : CleanState) : List Byte :=
  if (rooted && st.out.length != 1) || (!rooted && st.out.length != 0) then [Separator] else []

/-- Whether `Clean` treats the path as rooted: `os.IsPathSeparator(path[0])`. -/
def isRooted : GoString → Bool
  | [] => false
  | c :: _ => IsPathSeparator c

/-- The bytes the loop of `Clean` reads: the path without its leading separator. -/
def body (rooted : Bool) (s : GoString) : List Byte := if rooted then s.tail else s

/-- The state in which the loop of `Clean` ends on a path. -/
def finalState (s : GoString) : CleanState :=
  run (isRooted s) (body (isRooted s) s) (initState (isRooted s))

/-- The last step of `Clean`: an empty buffer is turned into `"."`. -/
def outOrDot (st : CleanState) : GoString := if st.out.length = 0 then [dot] else st.out

/-- The directory part written before an element ends in a separator or is
empty. -/
def endsSep (pre : List Byte) : Prop := pre = [] ∨ ∃ q, pre = q ++ [Separator]

/-- A stand-in for the hash function, to evaluate the definitions on concrete
inputs: 32 copies of the input length modulo 256. -/
def lengthDigest (b : List Byte) : Digest :=
  ⟨List.replicate 32 (Fin.ofNat b.length), List.length_replicate 32 _⟩

/-- Concrete providers with the stand-in hash: a temp directory `T` for every
namespace and the data directory `/data`. -/
def sampleEnv (T : AbsoluteSystemPath) : Env :=
  { Sum256 := lengthDigest, TempDir := fun _ => T, GetTurboDataDir := lit "/data" }

/-! ## Hex encoding: lemmas -/

theorem Encode_length (src : List Byte) : (Encode src).length = 2 * src.length := by
  induction src with
  | nil => rfl
  | cons v src ih => simp only [Encode, List.length_cons, ih]; omega

theorem EncodeToString_digest_length (d : Digest) : (EncodeToString d.bytes).length = 64 := by
  simp only [EncodeToString, Encode_length, d.size]

theorem hexDigit_isLowerHex : ∀ (i : Nat) (h : i < 16), isLowerHex (hexDigit i h) = true := by
  decide

theorem isLowerHex_mem_hextable : ∀ c : Byte, isLowerHex c = true → c ∈ lit "0123456789abcdef" := by
  decide

theorem Encode_isLowerHex (src : List Byte) : ∀ c ∈ Encode src, isLowerHex c = true := by
  induction src with
  | nil => intro c hc; simp [Encode] at hc
  | cons v src ih =>
    intro c hc
    simp only [Encode, List.mem_cons] at hc
    rcases hc with h | h | h
    · rw [h]; exact hexDigit_isLowerHex _ _
    · rw [h]; exact hexDigit_isLowerHex _ _
    · exact ih c h

theorem Encode_take (src : List Byte) :
    ∀ n : Nat, (Encode src).take (2 * n) = Encode (src.take n) := by
  induction src with
  | nil => intro n; simp [Encode]
  | cons v src ih =>
    intro n
    cases n with
    | zero => simp [Encode]
    | succ n =>
      have h : 2 * (n + 1) = (2 * n + 1) + 1 := by omega
      rw [h]
      simp only [Encode, List.take_succ_cons, ih n]

theorem getRepoHash_length (env : Env) (repoRoot : AbsoluteSystemPath) :
    (getRepoHash env repoRoot).length = 16 := by
  simp only [getRepoHash, List.length_take, EncodeToString_digest_length]
  rfl

theorem getRepoHash_isLowerHex (env : Env) (repoRoot : AbsoluteSystemPath) :
    ∀ c ∈ getRepoHash env repoRoot, isLowerHex c = true := by
  intro c hc
  exact Encode_isLowerHex _ c (List.mem_of_mem_take hc)

/-! ## The loop of `Clean`: lemmas -/

theorem notSep_eq_true (c : Byte) : notSep c = true ↔ IsPathSeparator c = false := by
  simp [notSep]

theorem notSep_of_not (c : Byte) (h : ¬ IsPathSeparator c = true) : notSep c = true := by
  simpa [notSep] using h

theorem notSep_Separator : notSep Separator = false := by decide

theorem length_dropWhile_le {α : Type} (p : α → Bool) (l : List α) :
    (l.dropWhile p).length ≤ l.length := by
  induction l with
  | nil => simp
  | cons a l ih =>
    rw [List.dropWhile_cons]
    split
    · simp only [List.length_cons]; omega
    · exact Nat.le_refl _

theorem cleanLoop_fuel (rooted : Bool) :
    ∀ (f : Nat) (input : List Byte) (st : CleanState) (g : Nat),
      input.length ≤ f → input.length ≤ g →
      cleanLoop rooted f input st = cleanLoop rooted g input st := by
  intro f
  induction f with
  | zero =>
    intro input st g hf _
    have : input = [] := List.length_eq_zero.mp (Nat.le_zero.mp hf)
    subst this
    cases g <;> rfl
  | succ f ih =>
    intro input st g hf hg
    cases input with
    | nil => cases g <;> rfl
    | cons c rest =>
      cases g with
      | zero => simp at hg
      | succ g =>
        simp only [List.length_cons, Nat.add_le_add_iff_right] at hf hg
        simp only [cleanLoop]
        split
        · exact ih rest st g hf hg
        · split
          · exact ih rest st g hf hg
          · split
            · have ht : rest.tail.length ≤ rest.length := by simp
              exact ih _ _ g (by omega) (by omega)
            · rename_i hsep _ _
              have hd : ((c :: rest).dropWhile notSep).length
                  ≤ rest.length := by
                rw [List.dropWhile_cons_of_pos (notSep_of_not c hsep)]
                exact length_dropWhile_le _ _
              exact ih _ _ g (by omega) (by omega)

theorem run_nil (rooted : Bool) (st : CleanState) : run rooted [] st = st := rfl

theorem run_cons (rooted : Bool) (c : Byte) (rest : List Byte) (st : CleanState) :
    run rooted (c :: rest) st =
      if IsPathSeparator c then run rooted rest st
      else if decide (c = dot) && endOrSep rest then run rooted rest st
      else if decide (c = dot) && decide (rest.head? = some dot) && endOrSep rest.tail then
        run rooted rest.tail (dotdotElem rooted st)
      else
        run rooted ((c :: rest).dropWhile notSep)
          (realElem rooted (c :: rest) st) := by
  simp only [run, List.length_cons, cleanLoop]
  split
  · rfl
  · split
    · rfl
    · split
      · exact cleanLoop_fuel rooted _ _ _ _ (by simp) (Nat.le_refl _)
      · rename_i hsep _ _
        refine cleanLoop_fuel rooted _ _ _ _ ?_ (Nat.le_refl _)
        rw [List.dropWhile_cons_of_pos (notSep_of_not c hsep)]
        exact length_dropWhile_le _ _

theorem IsPathSeparator_Separator : IsPathSeparator Separator = true := by decide

theorem IsPathSeparator_dot : IsPathSeparator dot = false := by decide

theorem IsPathSeparator_iff (b : Byte) : IsPathSeparator b = true ↔ b = Separator := by
  simp only [IsPathSeparator, decide_eq_true_eq]
  exact eq_comm

theorem endOrSep_append (a b : List Byte) :
    endOrSep (a ++ Separator :: b) = endOrSep a := by
  cases a with
  | nil => rfl
  | cons x a => rfl

theorem takeWhile_append_sep (a b : List Byte) :
    (a ++ Separator :: b).takeWhile notSep
      = a.takeWhile notSep := by
  induction a with
  | nil => simp [notSep_Separator]
  | cons x a ih =>
    simp only [List.cons_append, List.takeWhile_cons, ih]

theorem dropWhile_append_sep (a b : List Byte) :
    (a ++ Separator :: b).dropWhile notSep
      = a.dropWhile notSep ++ Separator :: b := by
  induction a with
  | nil => simp [notSep_Separator]
  | cons x a ih =>
    simp only [List.cons_append, List.dropWhile_cons, ih]
    split <;> rfl

theorem realElem_append_sep (rooted : Bool) (a b : List Byte) (st : CleanState) :
    realElem rooted (a ++ Separator :: b) st = realElem rooted a st := by
  simp only [realElem, takeWhile_append_sep]

/-- The loop reads its input element by element: what follows a separator does
not influence how the bytes before it are processed. -/
theorem run_append_sep (rooted : Bool) :
    ∀ (n : Nat) (a : List Byte), a.length ≤ n → ∀ (b : List Byte) (st : CleanState),
      run rooted (a ++ Separator :: b) st = run rooted b (run rooted a st) := by
  intro n
  induction n with
  | zero =>
    intro a ha b st
    have : a = [] := List.length_eq_zero.mp (Nat.le_zero.mp ha)
    subst this
    simp [run_cons, run_nil, IsPathSeparator_Separator]
  | succ n ih =>
    intro a ha b st
    cases a with
    | nil => simp [run_cons, run_nil, IsPathSeparator_Separator]
    | cons c a =>
      simp only [List.length_cons, Nat.add_le_add_iff_right] at ha
      rw [List.cons_append, run_cons, run_cons rooted c a, endOrSep_append]
      by_cases h1 : IsPathSeparator c = true
      · rw [if_pos h1, if_pos h1]
        exact ih a ha b st
      · rw [if_neg h1, if_neg h1]
        by_cases h2 : (decide (c = dot) && endOrSep a) = true
        · rw [if_pos h2, if_pos h2]
          exact ih a ha b st
        · rw [if_neg h2, if_neg h2]
          have hd : ((c :: a).dropWhile notSep).length ≤ n := by
            rw [List.dropWhile_cons_of_pos (notSep_of_not c h1)]
            exact Nat.le_trans (length_dropWhile_le _ _) ha
          have e1 : c :: (a ++ Separator :: b) = (c :: a) ++ Separator :: b := rfl
          cases a with
          | nil =>
            have h3 : ¬ (decide (c = dot) && decide (([] : List Byte).head? = some dot)
                && endOrSep ([] : List Byte).tail) = true := by simp
            have h3b : ¬ (decide (c = dot)
                && decide (([] ++ Separator :: b : List Byte).head? = some dot)
                && endOrSep ([] ++ Separator :: b : List Byte).tail) = true := by
              have : (decide (Separator = dot)) = false := by decide
              simp [this]
            rw [if_neg h3, if_neg h3b, e1, realElem_append_sep, dropWhile_append_sep]
            exact ih _ hd b _
          | cons x a =>
            simp only [List.cons_append, List.head?_cons, List.tail_cons, endOrSep_append]
            simp only [List.length_cons] at ha
            by_cases h3 : (decide (c = dot) && decide (some x = some dot) && endOrSep a) = true
            · rw [if_pos h3, if_pos h3]
              exact ih a (by omega) b _
            · rw [if_neg h3, if_neg h3]
              have e2 : c :: x :: (a ++ Separator :: b) = (c :: x :: a) ++ Separator :: b := rfl
              rw [e2, realElem_append_sep, dropWhile_append_sep]
              exact ih _ hd b _

theorem run_append_sep' (rooted : Bool) (a b : List Byte) (st : CleanState) :
    run rooted (a ++ Separator :: b) st = run rooted b (run rooted a st) :=
  run_append_sep rooted a.length a (Nat.le_refl _) b st

theorem takeWhile_of_all {α : Type} (p : α → Bool) (l : List α) (h : ∀ x ∈ l, p x = true) :
    l.takeWhile p = l := by
  induction l with
  | nil => rfl
  | cons a l ih =>
    rw [List.takeWhile_cons_of_pos (h a (List.mem_cons_self _ _)),
      ih (fun x hx => h x (List.mem_cons_of_mem _ hx))]

theorem dropWhile_of_all {α : Type} (p : α → Bool) (l : List α) (h : ∀ x ∈ l, p x = true) :
    l.dropWhile p = [] := by
  induction l with
  | nil => rfl
  | cons a l ih =>
    rw [List.dropWhile_cons_of_pos (h a (List.mem_cons_self _ _)),
      ih (fun x hx => h x (List.mem_cons_of_mem _ hx))]

theorem IsName.all_notSep {N : GoString} (h : IsName N) :
    ∀ x ∈ N, notSep x = true := by
  intro x hx
  rw [notSep_eq_true]; exact h.2.1 x hx

theorem IsName.takeWhile_eq {N : GoString} (h : IsName N) :
    N.takeWhile notSep = N :=
  takeWhile_of_all _ _ h.all_notSep

theorem IsName.dropWhile_eq {N : GoString} (h : IsName N) :
    N.dropWhile notSep = [] :=
  dropWhile_of_all _ _ h.all_notSep

/-- On the bytes of one real element the loop takes the `default` case once. -/
theorem run_name (rooted : Bool) {N : GoString} (h : IsName N) (st : CleanState) :
    run rooted N st = realElem rooted N st := by
  obtain ⟨hne, hsep, hd1, hd2⟩ := h
  cases N with
  | nil => exact absurd rfl hne
  | cons c rest =>
    have hc : IsPathSeparator c = false := hsep c (List.mem_cons_self _ _)
    have h2 : ¬ (decide (c = dot) && endOrSep rest) = true := by
      intro h
      simp only [Bool.and_eq_true, decide_eq_true_eq] at h
      obtain ⟨hcd, he⟩ := h
      cases rest with
      | nil => exact hd1 (by rw [hcd])
      | cons x rest =>
        have := hsep x (by simp)
        simp only [endOrSep] at he
        rw [this] at he
        exact Bool.false_ne_true he
    have h3 : ¬ (decide (c = dot) && decide (rest.head? = some dot) && endOrSep rest.tail)
        = true := by
      intro h
      simp only [Bool.and_eq_true, decide_eq_true_eq] at h
      obtain ⟨⟨hcd, hh⟩, he⟩ := h
      cases rest with
      | nil => simp at hh
      | cons x rest =>
        simp only [List.head?_cons, Option.some.injEq] at hh
        cases rest with
        | nil => exact hd2 (by rw [hcd, hh])
        | cons y rest =>
          have := hsep y (by simp)
          simp only [List.tail_cons, endOrSep] at he
          rw [this] at he
          exact Bool.false_ne_true he
    rw [run_cons, if_neg (by rw [hc]; exact Bool.false_ne_true), if_neg h2, if_neg h3,
      IsName.dropWhile_eq ⟨hne, hsep, hd1, hd2⟩, run_nil]

theorem run_dotdot (rooted : Bool) (st : CleanState) :
    run rooted [dot, dot] st = dotdotElem rooted st := by
  rw [run_cons]
  have h1 : ¬ IsPathSeparator dot = true := by decide
  have h2 : ¬ (decide (dot = dot) && endOrSep [dot]) = true := by decide
  have h3 : (decide (dot = dot) && decide ([dot].head? = some dot) && endOrSep [dot].tail)
      = true := by decide
  rw [if_neg h1, if_neg h2, if_pos h3]
  rfl

theorem run_dot (rooted : Bool) (st : CleanState) : run rooted [dot] st = st := by
  rw [run_cons]
  have h1 : ¬ IsPathSeparator dot = true := by decide
  have h2 : (decide (dot = dot) && endOrSep []) = true := by decide
  rw [if_neg h1, if_pos h2, run_nil]

/-- In the `default` case of the loop the element copied is a real element. -/
theorem isName_takeWhile (c : Byte) (rest : List Byte)
    (h1 : ¬ IsPathSeparator c = true)
    (h2 : ¬ (decide (c = dot) && endOrSep rest) = true)
    (h3 : ¬ (decide (c = dot) && decide (rest.head? = some dot) && endOrSep rest.tail) = true) :
    IsName ((c :: rest).takeWhile notSep) := by
  have hc : notSep c = true := notSep_of_not c h1
  rw [List.takeWhile_cons_of_pos hc]
  refine ⟨by simp, ?_, ?_, ?_⟩
  · intro b hb
    rcases List.mem_cons.mp hb with hb | hb
    · rw [hb]; simpa using h1
    · have := List.mem_takeWhile_imp hb
      exact (notSep_eq_true b).mp this
  · intro h
    simp only [List.cons.injEq] at h
    obtain ⟨hcd, ht⟩ := h
    apply h2
    cases rest with
    | nil => simp [hcd, endOrSep]
    | cons x rest =>
      rw [List.takeWhile_cons] at ht
      split at ht
      · simp at ht
      · rename_i hx
        simp only [notSep, Bool.not_eq_true, Bool.not_eq_false'] at hx
        simp [hcd, endOrSep, hx]
  · intro h
    simp only [List.cons.injEq] at h
    obtain ⟨hcd, ht⟩ := h
    apply h3
    cases rest with
    | nil => simp at ht
    | cons x rest =>
      rw [List.takeWhile_cons] at ht
      split at ht
      · simp only [List.cons.injEq] at ht
        obtain ⟨hxd, ht⟩ := ht
        cases rest with
        | nil => simp [hcd, hxd, endOrSep]
        | cons y rest =>
          rw [List.takeWhile_cons] at ht
          split at ht
          · simp at ht
          · rename_i hy
            simp only [notSep, Bool.not_eq_true, Bool.not_eq_false'] at hy
            simp [hcd, hxd, endOrSep, hy]
      · simp at ht

theorem realElem_name (rooted : Bool) {N : GoString} (h : IsName N) (st : CleanState) :
    realElem rooted N st = ⟨st.out ++ sepIf rooted st ++ N, st.dotdot⟩ := by
  simp only [realElem, sepIf, h.takeWhile_eq]
  split <;> simp

theorem dotdotElem_up (st : CleanState) (h : st.out.length ≤ st.dotdot) :
    dotdotElem false st
      = ⟨(if st.out.length > 0 then st.out ++ [Separator] else st.out) ++ [dot, dot],
         ((if st.out.length > 0 then st.out ++ [Separator] else st.out) ++ [dot, dot]).length⟩ := by
  simp only [dotdotElem]
  rw [if_neg (by omega)]
  simp

theorem Canon.dotdot_le {rooted : Bool} {st : CleanState} (h : Canon rooted st) :
    st.dotdot ≤ st.out.length := by
  induction h with
  | init => cases rooted <;> simp [initState]
  | name st N _ hN ih =>
    rw [realElem_name rooted hN]
    simp only [List.length_append]
    omega
  | up st _ hr hle _ =>
    subst hr
    rw [dotdotElem_up st hle]

theorem Canon.rooted_out {st : CleanState} (h : Canon true st) :
    st.dotdot = 1 ∧ ∃ t, st.out = Separator :: t := by
  induction h with
  | init => exact ⟨rfl, [], rfl⟩
  | name st N _ hN ih =>
    obtain ⟨hd, t, ht⟩ := ih
    rw [realElem_name true hN]
    refine ⟨hd, t ++ sepIf true st ++ N, ?_⟩
    simp [ht]
  | up st _ hr2 _ _ => cases hr2

theorem head?_append_of_ne_nil (a b : List Byte) (h : a ≠ []) :
    (a ++ b).head? = a.head? := by
  cases a with
  | nil => exact absurd rfl h
  | cons x a => rfl

theorem Canon.unrooted_head {st : CleanState} (h : Canon false st) :
    st.out.head? ≠ some Separator := by
  induction h with
  | init => simp [initState]
  | name st N _ hN ih =>
    rw [realElem_name false hN]
    by_cases hst : st.out = []
    · have hs : sepIf false st = [] := by simp [sepIf, hst]
      simp only [hst, hs, List.nil_append]
      obtain ⟨hne, hsep, _, _⟩ := hN
      cases N with
      | nil => exact absurd rfl hne
      | cons c N =>
        have := hsep c (List.mem_cons_self _ _)
        simp only [List.head?_cons, ne_eq, Option.some.injEq]
        intro hc
        rw [hc] at this
        exact absurd this (by decide)
    · simp only [List.append_assoc]
      rw [head?_append_of_ne_nil _ _ hst]
      exact ih
  | up st _ _ hle ih =>
    rw [dotdotElem_up st hle]
    by_cases hst : st.out = []
    · simp only [hst, List.length_nil, gt_iff_lt, Nat.lt_irrefl, if_false, List.nil_append,
        List.head?_cons, ne_eq, Option.some.injEq]
      decide
    · have hl : st.out.length > 0 := List.length_pos.mpr hst
      simp only [hl, if_true, List.append_assoc]
      rw [head?_append_of_ne_nil _ _ hst]
      exact ih

/-- The backward scan over an element: from any index inside a run of
non-separator bytes that starts right after index `L`, the scan stops at `L`
when `L` holds a separator or is the `dotdot` bound. -/
theorem backtrack_stop (buf : List Byte) (dd L : Nat) (hdd : dd ≤ L)
    (hL : dd = L ∨ IsPathSeparator (buf.getD L 0) = true) :
    ∀ j : Nat, (∀ i, L < i → i ≤ L + j → IsPathSeparator (buf.getD i 0) = false) →
      backtrack buf dd (L + j) = L := by
  intro j
  induction j with
  | zero =>
    intro _
    cases L with
    | zero => rfl
    | succ l =>
      simp only [Nat.add_zero, backtrack]
      rcases hL with h | h
      · rw [if_neg]
        have : ¬ (l + 1 > dd) := by omega
        simp [this]
      · rw [if_neg]
        rw [h]; simp
  | succ j ih =>
    intro h
    have e : L + (j + 1) = (L + j) + 1 := by omega
    rw [e]
    simp only [backtrack]
    have h1 := h (L + j + 1) (by omega) (by omega)
    have h2 : L + j + 1 > dd := by omega
    rw [if_pos (by rw [h1]; simp [h2])]
    exact ih (fun i hi hi2 => h i hi (by omega))

theorem getD_name_notSep {N : GoString} (h : IsName N) (i : Nat) (hi : i < N.length) :
    IsPathSeparator (N.getD i 0) = false := by
  rw [List.getD_eq_getElem _ _ hi]
  exact h.2.1 _ (List.getElem_mem hi)

theorem IsName.length_pos {N : GoString} (h : IsName N) : 0 < N.length :=
  List.length_pos.mpr h.1

theorem sepIf_cases (rooted : Bool) (st : CleanState) :
    (sepIf rooted st = [Separator] ∧
        ((rooted = true ∧ st.out.length ≠ 1) ∨ (rooted = false ∧ st.out.length ≠ 0))) ∨
    (sepIf rooted st = [] ∧
        ((rooted = true ∧ st.out.length = 1) ∨ (rooted = false ∧ st.out.length = 0))) := by
  cases rooted
  · by_cases h : st.out.length = 0
    · right; simp [sepIf, h]
    · left; simp [sepIf, h]
  · by_cases h : st.out.length = 1
    · right; simp [sepIf, h]
    · left; simp [sepIf, h]

/-- A `..` element right after a real element removes that element again. -/
theorem dotdotElem_realElem (rooted : Bool) {st : CleanState} (hC : Canon rooted st)
    {N : GoString} (hN : IsName N) :
    dotdotElem rooted (realElem rooted N st) = st := by
  have hdd := hC.dotdot_le
  have hm := hN.length_pos
  rw [realElem_name rooted hN]
  have hlen : (st.out ++ sepIf rooted st ++ N).length
      = st.out.length + ((sepIf rooted st).length + N.length) := by
    simp only [List.length_append]; omega
  simp only [dotdotElem]
  rw [if_pos (by rw [hlen]; omega)]
  have key : backtrack (st.out ++ sepIf rooted st ++ N) st.dotdot
      ((st.out ++ sepIf rooted st ++ N).length - 1) = st.out.length := by
    rcases sepIf_cases rooted st with ⟨hs, _⟩ | ⟨hs, hcase⟩
    · have e : (st.out ++ sepIf rooted st ++ N).length - 1 = st.out.length + N.length := by
        rw [hlen, hs]; simp only [List.length_singleton]; omega
      rw [e]
      apply backtrack_stop _ _ _ hdd
      · right
        rw [hs, List.append_assoc, List.getD_append_right _ _ _ _ (Nat.le_refl _)]
        simp [IsPathSeparator_Separator]
      · intro i hi1 hi2
        rw [hs, List.append_assoc, List.getD_append_right _ _ _ _ (by omega)]
        have e2 : i - st.out.length = (i - st.out.length - 1) + 1 := by omega
        rw [e2]
        simp only [List.singleton_append, List.getD_cons_succ]
        exact getD_name_notSep hN _ (by omega)
    · have e : (st.out ++ sepIf rooted st ++ N).length - 1
          = st.out.length + (N.length - 1) := by
        rw [hlen, hs]; simp only [List.length_nil]; omega
      rw [e]
      apply backtrack_stop _ _ _ hdd
      · left
        rcases hcase with ⟨hr, hl⟩ | ⟨hr, hl⟩
        · subst hr
          rw [hC.rooted_out.1, hl]
        · omega
      · intro i hi1 hi2
        rw [hs, List.append_nil, List.getD_append_right _ _ _ _ (by omega)]
        exact getD_name_notSep hN _ (by omega)
  rw [key, List.append_assoc, List.take_left']
  rfl

theorem Canon.dotdotElem_preserved {rooted : Bool} {st : CleanState} (hC : Canon rooted st) :
    Canon rooted (dotdotElem rooted st) := by
  by_cases h : st.out.length > st.dotdot
  · cases hC with
    | init => cases rooted <;> simp [initState] at h
    | name st1 N h1 hN => rw [dotdotElem_realElem rooted h1 hN]; exact h1
    | up st1 h1 hr hle =>
      subst hr
      rw [dotdotElem_up st1 hle] at h
      simp at h
  · cases hr : rooted with
    | false =>
      subst hr
      exact Canon.up st hC rfl (by omega)
    | true =>
      subst hr
      have : dotdotElem true st = st := by
        simp only [dotdotElem]
        rw [if_neg h]
        simp
      rw [this]
      exact hC

/-- The loop of `Clean` keeps its state canonical. -/
theorem Canon.run_preserved {rooted : Bool} :
    ∀ (n : Nat) (input : List Byte), input.length ≤ n → ∀ st : CleanState,
      Canon rooted st → Canon rooted (run rooted input st) := by
  intro n
  induction n with
  | zero =>
    intro input hn st hC
    have : input = [] := List.length_eq_zero.mp (Nat.le_zero.mp hn)
    subst this
    exact hC
  | succ n ih =>
    intro input hn st hC
    cases input with
    | nil => exact hC
    | cons c rest =>
      simp only [List.length_cons, Nat.add_le_add_iff_right] at hn
      rw [run_cons]
      by_cases h1 : IsPathSeparator c = true
      · rw [if_pos h1]; exact ih rest hn st hC
      · rw [if_neg h1]
        by_cases h2 : (decide (c = dot) && endOrSep rest) = true
        · rw [if_pos h2]; exact ih rest hn st hC
        · rw [if_neg h2]
          by_cases h3 : (decide (c = dot) && decide (rest.head? = some dot)
              && endOrSep rest.tail) = true
          · rw [if_pos h3]
            exact ih _ (by simp; omega) _ hC.dotdotElem_preserved
          · rw [if_neg h3]
            have hN := isName_takeWhile c rest h1 h2 h3
            have e : realElem rooted (c :: rest) st
                = realElem rooted ((c :: rest).takeWhile notSep) st := by
              simp only [realElem, List.takeWhile_takeWhile]
              simp
            rw [e]
            refine ih _ ?_ _ (Canon.name st _ hC hN)
            rw [List.dropWhile_cons_of_pos (notSep_of_not c h1)]
            exact Nat.le_trans (length_dropWhile_le _ _) hn

theorem Clean_eq (s : GoString) : Clean s = outOrDot (finalState s) := by
  cases s with
  | nil => rfl
  | cons c rest =>
    by_cases h : IsPathSeparator c = true
    · simp [Clean, finalState, isRooted, outOrDot, body, run, initState, h]
    · have h2 : IsPathSeparator c = false := by simpa using h
      simp [Clean, finalState, isRooted, outOrDot, body, run, initState, h2]

theorem Canon.of_finalState (s : GoString) : Canon (isRooted s) (finalState s) :=
  Canon.run_preserved _ _ (Nat.le_refl _) _ Canon.init

theorem Canon.isRooted_out {rooted : Bool} {st : CleanState} (hC : Canon rooted st) :
    isRooted st.out = rooted := by
  cases rooted with
  | true =>
    obtain ⟨_, t, ht⟩ := hC.rooted_out
    rw [ht]; exact IsPathSeparator_Separator
  | false =>
    have h := hC.unrooted_head
    cases hst : st.out with
    | nil => rfl
    | cons x t =>
      rw [hst] at h
      simp only [List.head?_cons, ne_eq, Option.some.injEq] at h
      simp only [isRooted, IsPathSeparator]
      exact decide_eq_false (fun e => h e.symm)

theorem Canon.eq_init_of_sepIf_nil {rooted : Bool} {st : CleanState} (hC : Canon rooted st)
    (h : sepIf rooted st = []) : st = initState rooted := by
  rcases sepIf_cases rooted st with ⟨hs, _⟩ | ⟨_, hcase⟩
  · rw [h] at hs; cases hs
  · rcases hcase with ⟨hr, hl⟩ | ⟨hr, hl⟩
    · subst hr
      obtain ⟨hd, t, ht⟩ := hC.rooted_out
      rw [ht] at hl
      have : t = [] := by
        cases t with
        | nil => rfl
        | cons _ _ => simp at hl
      subst this
      cases st
      simp only at hd ht
      subst hd ht
      rfl
    · subst hr
      have hd := hC.dotdot_le
      have : st.out = [] := List.length_eq_zero.mp hl
      cases st
      simp only at this hd
      subst this
      simp only [List.length_nil, Nat.le_zero] at hd
      subst hd
      rfl

theorem body_append (rooted : Bool) (s t : List Byte) (h : rooted = true → s ≠ []) :
    body rooted (s ++ t) = body rooted s ++ t := by
  cases rooted with
  | false => rfl
  | true =>
    simp only [body, if_true]
    cases s with
    | nil => exact absurd rfl (h rfl)
    | cons x s => rfl

theorem Canon.out_ne_nil {st : CleanState} (hC : Canon true st) : st.out ≠ [] := by
  obtain ⟨_, t, ht⟩ := hC.rooted_out
  rw [ht]; simp

/-- Cleaning what the loop wrote runs the loop into the same state again. -/
theorem Canon.run_out {rooted : Bool} {st : CleanState} (hC : Canon rooted st) :
    run rooted (body rooted st.out) (initState rooted) = st := by
  induction hC with
  | init => cases rooted <;> rfl
  | name st N h1 hN ih =>
    by_cases hs : sepIf rooted st = []
    · have := h1.eq_init_of_sepIf_nil hs
      subst this
      rw [realElem_name rooted hN, hs]
      have e : body rooted ((initState rooted).out ++ [] ++ N) = N := by
        cases rooted <;> rfl
      simp only [e]
      rw [run_name rooted hN, realElem_name rooted hN, hs]
    · have hs1 : sepIf rooted st = [Separator] := by
        rcases sepIf_cases rooted st with ⟨h, _⟩ | ⟨h, _⟩
        · exact h
        · exact absurd h hs
      rw [realElem_name rooted hN, hs1]
      simp only [List.append_assoc, List.singleton_append]
      rw [body_append rooted _ _ (fun hr => by subst hr; exact h1.out_ne_nil),
        run_append_sep', ih, run_name rooted hN, realElem_name rooted hN, hs1]
      simp
  | up st h1 hr hle ih =>
    subst hr
    rw [dotdotElem_up st hle]
    by_cases hl : st.out.length > 0
    · simp only [hl, if_true, body, Bool.false_eq_true, if_false, List.append_assoc,
        List.singleton_append]
      simp only [body, Bool.false_eq_true, if_false] at ih
      rw [run_append_sep', ih, run_dotdot, dotdotElem_up st hle]
      simp [hl]
    · have : st = initState false := by
        have hd := h1.dotdot_le
        have h0 : st.out = [] := List.length_eq_zero.mp (by omega)
        cases st
        simp only at h0 hd hle
        subst h0
        simp only [List.length_nil, Nat.le_zero] at hd
        subst hd
        rfl
      subst this
      rfl

theorem Canon.finalState_out {rooted : Bool} {st : CleanState} (hC : Canon rooted st) :
    finalState st.out = st := by
  simp only [finalState, hC.isRooted_out]
  exact hC.run_out

theorem Canon.outOrDot_ne_nil {rooted : Bool} {st : CleanState} (_ : Canon rooted st) :
    outOrDot st ≠ [] := by
  simp only [outOrDot]
  split
  · simp
  · rename_i h
    intro h2
    exact h (by rw [h2]; rfl)

/-- Cleaning the result of `Clean` ends in the same loop state. -/
theorem Canon.finalState_outOrDot {rooted : Bool} {st : CleanState} (hC : Canon rooted st) :
    finalState (outOrDot st) = st ∧ isRooted (outOrDot st) = rooted := by
  by_cases h : st.out.length = 0
  · have h0 : st.out = [] := List.length_eq_zero.mp h
    have hr : rooted = false := by
      cases rooted with
      | false => rfl
      | true => exact absurd h0 hC.out_ne_nil
    subst hr
    have hd := hC.dotdot_le
    have : st = initState false := by
      cases st
      simp only at h0 hd
      subst h0
      simp only [List.length_nil, Nat.le_zero] at hd
      subst hd
      rfl
    subst this
    exact ⟨by decide, by decide⟩
  · simp only [outOrDot, h, if_false]
    exact ⟨hC.finalState_out, hC.isRooted_out⟩

theorem Clean_ne_nil (s : GoString) : Clean s ≠ [] := by
  rw [Clean_eq]; exact (Canon.of_finalState s).outOrDot_ne_nil

/-- `Clean` is idempotent. -/
theorem Clean_Clean (s : GoString) : Clean (Clean s) = Clean s := by
  rw [Clean_eq s, Clean_eq (outOrDot _), (Canon.of_finalState s).finalState_outOrDot.1]

/-! ## Join, Dir and Base on cleaned paths -/

theorem stringsJoin_pair (a b : GoString) :
    stringsJoin [Separator] [a, b] = a ++ Separator :: b := by
  simp [stringsJoin]

theorem isRooted_append (s t : GoString) (h : s ≠ []) : isRooted (s ++ t) = isRooted s := by
  cases s with
  | nil => exact absurd rfl h
  | cons x s => rfl

theorem finalState_nil : finalState [] = initState false := rfl

/-- The loop state of a path followed by a separator and more bytes. -/
theorem finalState_append_sep (s t : GoString) (h : s ≠ []) :
    finalState (s ++ Separator :: t) = run (isRooted s) t (finalState s) := by
  simp only [finalState, isRooted_append s _ h]
  rw [body_append _ _ _ (fun _ => h), run_append_sep']

theorem IsName.isRooted_eq {N : GoString} (h : IsName N) : isRooted N = false := by
  obtain ⟨hne, hsep, _, _⟩ := h
  cases N with
  | nil => rfl
  | cons c N => exact hsep c (List.mem_cons_self _ _)

theorem finalState_name {N : GoString} (h : IsName N) :
    finalState N = realElem false N (initState false) := by
  simp only [finalState, h.isRooted_eq, body]
  exact run_name false h _

theorem realElem_out_ne_nil (rooted : Bool) {N : GoString} (h : IsName N) (st : CleanState) :
    (realElem rooted N st).out ≠ [] := by
  rw [realElem_name rooted h]
  simp [h.1]

theorem outOrDot_realElem (rooted : Bool) {N : GoString} (h : IsName N) (st : CleanState) :
    outOrDot (realElem rooted N st) = (realElem rooted N st).out := by
  have := realElem_out_ne_nil rooted h st
  simp only [outOrDot]
  rw [if_neg (fun h0 => this (List.length_eq_zero.mp h0))]

/-- Joining any path with a real element: the loop state of the path extended
by the element. -/
theorem Join_name (d : GoString) {N : GoString} (h : IsName N) :
    Join [d, N] = (realElem (isRooted d) N (finalState d)).out := by
  by_cases hd : d = []
  · subst hd
    have e : Join [[], N] = Clean N := by
      simp [Join, h.1, stringsJoin]
    rw [e, Clean_eq, finalState_name h, outOrDot_realElem false h]
    rfl
  · have e : Join [d, N] = Clean (d ++ Separator :: N) := by
      simp [Join, hd, stringsJoin]
    rw [e, Clean_eq, finalState_append_sep d N hd, run_name _ h, outOrDot_realElem _ h]

theorem Clean_name {N : GoString} (h : IsName N) : Clean N = N := by
  rw [Clean_eq, finalState_name h, outOrDot_realElem false h, realElem_name false h]
  rfl

theorem Join_single {N : GoString} (h : IsName N) : Join [N] = N := by
  have e : Join [N] = Clean N := by simp [Join, h.1, stringsJoin]
  rw [e, Clean_name h]

/-- `UntypedJoin` with one real element is `filepath.Join` of the two. -/
theorem UntypedJoin_name (p : AbsoluteSystemPath) {N : GoString} (h : IsName N) :
    p.UntypedJoin [N] = Join [p, N] := by
  simp only [AbsoluteSystemPath.UntypedJoin, AbsoluteSystemPath.ToString, Join_single h]

theorem Canon.endsSep_pre {rooted : Bool} {st : CleanState} (hC : Canon rooted st) :
    endsSep (st.out ++ sepIf rooted st) := by
  by_cases hs : sepIf rooted st = []
  · have := hC.eq_init_of_sepIf_nil hs
    subst this
    rw [hs]
    cases rooted
    · left; rfl
    · right; exact ⟨[], rfl⟩
  · have hs1 : sepIf rooted st = [Separator] := by
      rcases sepIf_cases rooted st with ⟨h, _⟩ | ⟨h, _⟩
      · exact h
      · exact absurd h hs
    rw [hs1]
    right; exact ⟨st.out, rfl⟩

theorem dropWhile_append_all {α : Type} (p : α → Bool) (a b : List α)
    (h : ∀ x ∈ a, p x = true) : (a ++ b).dropWhile p = b.dropWhile p := by
  induction a with
  | nil => rfl
  | cons x a ih =>
    rw [List.cons_append, List.dropWhile_cons_of_pos (h x (List.mem_cons_self _ _)),
      ih (fun y hy => h y (List.mem_cons_of_mem _ hy))]

theorem takeWhile_append_all {α : Type} (p : α → Bool) (a b : List α)
    (h : ∀ x ∈ a, p x = true) : (a ++ b).takeWhile p = a ++ b.takeWhile p := by
  induction a with
  | nil => rfl
  | cons x a ih =>
    rw [List.cons_append, List.takeWhile_cons_of_pos (h x (List.mem_cons_self _ _)),
      ih (fun y hy => h y (List.mem_cons_of_mem _ hy))]
    rfl

theorem endsSep.dropWhile_reverse {pre : List Byte} (h : endsSep pre) :
    pre.reverse.dropWhile notSep = pre.reverse := by
  rcases h with h | ⟨q, h⟩
  · subst h; rfl
  · subst h
    rw [List.reverse_append]
    exact List.dropWhile_cons_of_neg (by simp [notSep_Separator])

theorem endsSep.takeWhile_reverse {pre : List Byte} (h : endsSep pre) :
    pre.reverse.takeWhile notSep = [] := by
  rcases h with h | ⟨q, h⟩
  · subst h; rfl
  · subst h
    rw [List.reverse_append]
    exact List.takeWhile_cons_of_neg (by simp [notSep_Separator])

theorem uptoLastSep_append {pre N : List Byte} (hp : endsSep pre)
    (hN : ∀ x ∈ N, notSep x = true) : uptoLastSep (pre ++ N) = pre := by
  simp only [uptoLastSep, List.reverse_append]
  rw [dropWhile_append_all _ _ _ (fun x hx => hN x (List.mem_reverse.mp hx)),
    hp.dropWhile_reverse, List.reverse_reverse]

theorem afterLastSep_append {pre N : List Byte} (hp : endsSep pre)
    (hN : ∀ x ∈ N, notSep x = true) : afterLastSep (pre ++ N) = N := by
  simp only [afterLastSep, List.reverse_append]
  rw [takeWhile_append_all _ _ _ (fun x hx => hN x (List.mem_reverse.mp hx)),
    hp.takeWhile_reverse, List.append_nil, List.reverse_reverse]

theorem uptoLastSep_append_afterLastSep (p : GoString) :
    uptoLastSep p ++ afterLastSep p = p := by
  simp only [uptoLastSep, afterLastSep]
  rw [← List.reverse_append, List.takeWhile_append_dropWhile, List.reverse_reverse]

/-- Cleaning the directory part written before an element gives the cleaned
path the element was appended to. -/
theorem Canon.Clean_pre {rooted : Bool} {st : CleanState} (hC : Canon rooted st) :
    Clean (st.out ++ sepIf rooted st) = outOrDot st := by
  by_cases hs : sepIf rooted st = []
  · have := hC.eq_init_of_sepIf_nil hs
    subst this
    rw [hs]
    cases rooted <;> decide
  · have hs1 : sepIf rooted st = [Separator] := by
      rcases sepIf_cases rooted st with ⟨h, _⟩ | ⟨h, _⟩
      · exact h
      · exact absurd h hs
    have hne : st.out ≠ [] := by
      rcases sepIf_cases rooted st with ⟨_, hc⟩ | ⟨h, _⟩
      · rcases hc with ⟨hr, _⟩ | ⟨_, hl⟩
        · subst hr; exact hC.out_ne_nil
        · exact fun h0 => hl (by rw [h0]; rfl)
      · exact absurd h hs
    rw [hs1, Clean_eq, finalState_append_sep _ _ hne, run_nil, hC.finalState_out]

/-- The directory of a cleaned path extended by a real element is the cleaned
path. -/
theorem Canon.Dir_realElem {rooted : Bool} {st : CleanState} (hC : Canon rooted st)
    {N : GoString} (hN : IsName N) : Dir (realElem rooted N st).out = outOrDot st := by
  rw [realElem_name rooted hN]
  simp only [Dir]
  rw [uptoLastSep_append hC.endsSep_pre hN.all_notSep, hC.Clean_pre]

theorem Canon.fileName_realElem {rooted : Bool} {st : CleanState} (hC : Canon rooted st)
    {N : GoString} (hN : IsName N) : fileName (realElem rooted N st).out = N := by
  rw [realElem_name rooted hN]
  simp only [fileName, Split]
  exact afterLastSep_append hC.endsSep_pre hN.all_notSep

theorem Base_append_name (pre : List Byte) (hp : endsSep pre) {N : GoString} (hN : IsName N) :
    Base (pre ++ N) = N := by
  have hne : pre ++ N ≠ [] := by simp [hN.1]
  have hstrip : ((pre ++ N).reverse.dropWhile IsPathSeparator).reverse = pre ++ N := by
    rw [List.reverse_append]
    obtain ⟨hn, hsep, _, _⟩ := hN
    have : N.reverse ≠ [] := by simpa using hn
    cases hr : N.reverse with
    | nil => exact absurd hr this
    | cons x t =>
      have hx : x ∈ N := List.mem_reverse.mp (by rw [hr]; exact List.mem_cons_self _ _)
      rw [List.cons_append, List.dropWhile_cons_of_neg (by rw [hsep x hx]; simp),
        ← List.cons_append, ← hr, ← List.reverse_append, List.reverse_reverse]
  simp only [Base, if_neg hne, hstrip, afterLastSep_append hp hN.all_notSep, if_neg hN.1]

theorem Canon.Base_realElem {rooted : Bool} {st : CleanState} (hC : Canon rooted st)
    {N : GoString} (hN : IsName N) : Base (realElem rooted N st).out = N := by
  rw [realElem_name rooted hN]
  exact Base_append_name _ hC.endsSep_pre hN

/-- The directory of a path joined with a real element is the cleaned path. -/
theorem Dir_Join_name (d : GoString) {N : GoString} (h : IsName N) :
    Dir (Join [d, N]) = Clean d := by
  rw [Join_name d h, (Canon.of_finalState d).Dir_realElem h, Clean_eq]

theorem Base_Join_name (d : GoString) {N : GoString} (h : IsName N) :
    Base (Join [d, N]) = N := by
  rw [Join_name d h, (Canon.of_finalState d).Base_realElem h]

theorem fileName_Join_name (d : GoString) {N : GoString} (h : IsName N) :
    fileName (Join [d, N]) = N := by
  rw [Join_name d h, (Canon.of_finalState d).fileName_realElem h]

/-- Joining with the cleaned path is joining with the path. -/
theorem Join_Clean_name (d : GoString) {N : GoString} (h : IsName N) :
    Join [Clean d, N] = Join [d, N] := by
  rw [Join_name (Clean d) h, Join_name d h, Clean_eq,
    (Canon.of_finalState d).finalState_outOrDot.1, (Canon.of_finalState d).finalState_outOrDot.2]

/-- A path joined with a real element is clean. -/
theorem Clean_Join_name (d : GoString) {N : GoString} (h : IsName N) :
    Clean (Join [d, N]) = Join [d, N] := by
  rw [Join_name d h, Clean_eq,
    (Canon.name _ _ (Canon.of_finalState d) h).finalState_out, outOrDot_realElem _ h]

theorem sepIf_realElem (rooted : Bool) {st : CleanState} (hC : Canon rooted st)
    {N : GoString} (hN : IsName N) : sepIf rooted (realElem rooted N st) = [Separator] := by
  have hm := hN.length_pos
  rcases sepIf_cases rooted (realElem rooted N st) with ⟨h, _⟩ | ⟨_, hc⟩
  · exact h
  · exfalso
    rw [realElem_name rooted hN] at hc
    simp only [List.length_append] at hc
    rcases hc with ⟨hr, hl⟩ | ⟨_, hl⟩
    · subst hr
      obtain ⟨_, t, ht⟩ := hC.rooted_out
      rw [ht] at hl
      simp only [List.length_cons] at hl
      omega
    · omega

/-- Joining a path that ends in a real element with another real element
appends a separator and the element. -/
theorem Join_Join_name (d : GoString) {N M : GoString} (hN : IsName N) (hM : IsName M) :
    Join [Join [d, N], M] = Join [d, N] ++ Separator :: M := by
  have hC := Canon.name _ _ (Canon.of_finalState d) hN
  rw [Join_name (Join [d, N]) hM, Join_name d hN, hC.finalState_out, hC.isRooted_out,
    realElem_name _ hM, sepIf_realElem _ (Canon.of_finalState d) hN]
  simp

/-! ## strings.HasSuffix: lemmas -/

theorem HasSuffix_iff (s t : GoString) : HasSuffix s t = true ↔ t <:+ s := by
  simp only [HasSuffix, Bool.and_eq_true, decide_eq_true_eq]
  constructor
  · rintro ⟨_, h⟩
    exact List.suffix_iff_eq_drop.mpr h.symm
  · intro h
    exact ⟨h.length_le, (List.suffix_iff_eq_drop.mp h).symm⟩

theorem HasSuffix_append (a b : GoString) : HasSuffix (a ++ b) b = true :=
  (HasSuffix_iff _ _).mpr (List.suffix_append a b)

theorem getLast?_append_ne_nil (a b : List Byte) (h : b ≠ []) :
    (a ++ b).getLast? = b.getLast? := by
  rw [List.getLast?_eq_head?_reverse, List.getLast?_eq_head?_reverse, List.reverse_append]
  have : b.reverse ≠ [] := by simpa using h
  exact head?_append_of_ne_nil _ _ this

/-- A suffix test against a string with a different last byte fails. -/
theorem HasSuffix_false_of_getLast? (pre N t : GoString) (hN : N ≠ []) (ht : t ≠ [])
    (h : N.getLast? ≠ t.getLast?) : HasSuffix (pre ++ N) t = false := by
  rw [Bool.eq_false_iff]
  intro hs
  obtain ⟨u, hu⟩ := (HasSuffix_iff _ _).mp hs
  apply h
  rw [← getLast?_append_ne_nil pre N hN, ← hu, getLast?_append_ne_nil u t ht]

/-- After a directory part that is empty or ends in a separator, an element `N`
does not end in `t1 ++ [b] ++ N` when `b` is not the separator. -/
theorem HasSuffix_false_of_endsSep {pre : List Byte} (hp : endsSep pre) (N t1 : GoString)
    (b : Byte) (hb : b ≠ Separator) : HasSuffix (pre ++ N) (t1 ++ [b] ++ N) = false := by
  rw [Bool.eq_false_iff]
  intro hs
  obtain ⟨u, hu⟩ := (HasSuffix_iff _ _).mp hs
  have e : (u ++ t1 ++ [b]) ++ N = pre ++ N := by
    rw [← hu]; simp
  have e2 := List.append_cancel_right e
  rcases hp with h | ⟨q, h⟩
  · rw [h] at e2
    simp at e2
  · rw [h] at e2
    have := List.append_inj_right' e2 rfl
    simp only [List.cons.injEq, and_true] at this
    exact hb this

/-! ## The binary resolution step: lemmas -/

/-- A path joined with a real element is a directory part, empty or ending in a
separator, followed by the element. -/
theorem Join_name_pre (d : GoString) {N : GoString} (h : IsName N) :
    ∃ pre, endsSep pre ∧ Join [d, N] = pre ++ N :=
  ⟨_, (Canon.of_finalState d).endsSep_pre, by rw [Join_name d h, realElem_name _ h]⟩

theorem HasSuffix_Join_name (d : GoString) {N : GoString} (h : IsName N) :
    HasSuffix (Join [d, N]) N = true := by
  obtain ⟨pre, _, e⟩ := Join_name_pre d h
  rw [e]; exact HasSuffix_append pre N

theorem isName_go_turbo : IsName (lit "go-turbo") := by decide

theorem isName_go_turbo_exe : IsName (lit "go-turbo.exe") := by decide

theorem isName_turbo : IsName (lit "turbo") := by decide

theorem isName_turbo_exe : IsName (lit "turbo.exe") := by decide

/-- The wrapper path `<dir>/turbo` does not end in an engine name. -/
theorem HasSuffix_Join_turbo (d : GoString) :
    HasSuffix (Join [d, lit "turbo"]) (lit "go-turbo") = false ∧
    HasSuffix (Join [d, lit "turbo"]) (lit "go-turbo.exe") = false := by
  obtain ⟨pre, hp, e⟩ := Join_name_pre d isName_turbo
  rw [e]
  constructor
  · have h := HasSuffix_false_of_endsSep hp (lit "turbo") (lit "go") 45 (by decide)
    have e2 : lit "go" ++ [45] ++ lit "turbo" = lit "go-turbo" := by decide
    rw [e2] at h; exact h
  · exact HasSuffix_false_of_getLast? pre _ _ (by decide) (by decide) (by decide)

/-- The wrapper path `<dir>/turbo.exe` does not end in an engine name. -/
theorem HasSuffix_Join_turbo_exe (d : GoString) :
    HasSuffix (Join [d, lit "turbo.exe"]) (lit "go-turbo") = false ∧
    HasSuffix (Join [d, lit "turbo.exe"]) (lit "go-turbo.exe") = false := by
  obtain ⟨pre, hp, e⟩ := Join_name_pre d isName_turbo_exe
  rw [e]
  constructor
  · exact HasSuffix_false_of_getLast? pre _ _ (by decide) (by decide) (by decide)
  · have h := HasSuffix_false_of_endsSep hp (lit "turbo.exe") (lit "go") 45 (by decide)
    have e2 : lit "go" ++ [45] ++ lit "turbo.exe" = lit "go-turbo.exe" := by decide
    rw [e2] at h; exact h

theorem HasSuffix_Join_go_turbo_exe (d : GoString) :
    HasSuffix (Join [d, lit "go-turbo.exe"]) (lit "go-turbo") = false := by
  obtain ⟨pre, _, e⟩ := Join_name_pre d isName_go_turbo_exe
  rw [e]
  exact HasSuffix_false_of_getLast? pre _ _ (by decide) (by decide) (by decide)

theorem resolveBin_of_no_suffix (bin : GoString) (h1 : HasSuffix bin (lit "go-turbo") = false)
    (h2 : HasSuffix bin (lit "go-turbo.exe") = false) : resolveBin bin = bin := by
  simp [resolveBin, h1, h2]

theorem resolveBin_Join_go_turbo (d : GoString) :
    resolveBin (Join [d, lit "go-turbo"]) = Join [d, lit "turbo"] := by
  simp only [resolveBin, HasSuffix_Join_name d isName_go_turbo, if_true,
    Dir_Join_name d isName_go_turbo, Join_Clean_name d isName_turbo]

theorem resolveBin_Join_go_turbo_exe (d : GoString) :
    resolveBin (Join [d, lit "go-turbo.exe"]) = Join [d, lit "turbo.exe"] := by
  simp only [resolveBin, HasSuffix_Join_go_turbo_exe d, Bool.false_eq_true, if_false,
    HasSuffix_Join_name d isName_go_turbo_exe, if_true,
    Dir_Join_name d isName_go_turbo_exe, Join_Clean_name d isName_turbo_exe]

theorem resolveBin_Join_turbo (d : GoString) :
    resolveBin (Join [d, lit "turbo"]) = Join [d, lit "turbo"] :=
  resolveBin_of_no_suffix _ (HasSuffix_Join_turbo d).1 (HasSuffix_Join_turbo d).2

/-- The resolved entry point never ends in an engine name. -/
theorem resolveBin_no_suffix (bin : GoString) :
    HasSuffix (resolveBin bin) (lit "go-turbo") = false ∧
    HasSuffix (resolveBin bin) (lit "go-turbo.exe") = false := by
  by_cases h1 : HasSuffix bin (lit "go-turbo") = true
  · simp only [resolveBin, h1, if_true]
    exact HasSuffix_Join_turbo _
  · by_cases h2 : HasSuffix bin (lit "go-turbo.exe") = true
    · simp only [resolveBin, h1, if_false, h2, if_true]
      exact HasSuffix_Join_turbo_exe _
    · simp only [resolveBin, h1, if_false, h2]
      exact ⟨by simpa using h1, by simpa using h2⟩

theorem fileName_ne_of_no_suffix (p t : GoString) (h : HasSuffix p t = false) :
    fileName p ≠ t := by
  intro e
  have hs : t <:+ p := ⟨uptoLastSep p, by
    rw [← e]; exact uptoLastSep_append_afterLastSep p⟩
  rw [(HasSuffix_iff p t).mpr hs] at h
  exact Bool.noConfusion h

/-- For a directory written in cleaned form and ending in a real element (every
cleaned directory other than `/`, `.` and `..` chains), the paths of the
engine and of the wrapper are the directory followed by `/go-turbo` and
`/turbo`, and the resolution step maps one to the other. -/
theorem resolveBin_in_clean_dir (d : GoString) {N : GoString} (h : IsName N) :
    resolveBin (Join [d, N] ++ lit "/go-turbo") = Join [d, N] ++ lit "/turbo" ∧
    resolveBin (Join [d, N] ++ lit "/go-turbo.exe") = Join [d, N] ++ lit "/turbo.exe" ∧
    resolveBin (Join [d, N] ++ lit "/turbo") = Join [d, N] ++ lit "/turbo" := by
  have e1 : lit "/go-turbo" = Separator :: lit "go-turbo" := by decide
  have e2 : lit "/turbo" = Separator :: lit "turbo" := by decide
  have e3 : lit "/go-turbo.exe" = Separator :: lit "go-turbo.exe" := by decide
  have e4 : lit "/turbo.exe" = Separator :: lit "turbo.exe" := by decide
  rw [e1, e2, e3, e4, ← Join_Join_name d h isName_go_turbo, ← Join_Join_name d h isName_turbo,
    ← Join_Join_name d h isName_go_turbo_exe, ← Join_Join_name d h isName_turbo_exe]
  exact ⟨resolveBin_Join_go_turbo _, resolveBin_Join_go_turbo_exe _, resolveBin_Join_turbo _⟩

/-- In the current directory the engine `./go-turbo` is routed to `turbo`: the
result is the cleaned spelling of the wrapper's path. -/
theorem resolveBin_dot_slash :
    resolveBin (lit "./go-turbo") = lit "turbo" ∧
    Join [lit ".", lit "go-turbo"] = lit "go-turbo" ∧
    resolveBin (lit "go-turbo") = lit "turbo" ∧
    Join [lit ".", lit "turbo"] = lit "turbo" := by
  decide

/-- On a path that does not end in a separator `filepath.Base` is the file name
component of `filepath.Split`. -/
theorem Base_eq_fileName (p : GoString) (hne : p ≠ [])
    (h : p.getLast? ≠ some Separator) : Base p = fileName p := by
  rw [List.getLast?_eq_head?_reverse] at h
  have hr : p.reverse ≠ [] := by simpa using hne
  cases hp : p.reverse with
  | nil => exact absurd hp hr
  | cons x t =>
    rw [hp] at h
    simp only [List.head?_cons, ne_eq, Option.some.injEq] at h
    have hx : IsPathSeparator x = false := by
      simp only [IsPathSeparator]
      exact decide_eq_false (fun e => h e.symm)
    have hstrip : (p.reverse.dropWhile IsPathSeparator).reverse = p := by
      rw [hp, List.dropWhile_cons_of_neg (by rw [hx]; simp), ← hp, List.reverse_reverse]
    have hlast : afterLastSep p ≠ [] := by
      simp only [afterLastSep, hp]
      rw [List.takeWhile_cons_of_pos ((notSep_eq_true x).mpr hx)]
      simp
    simp only [Base, if_neg hne, hstrip, if_neg hlast, fileName, Split]

/-- The last element of the resolved entry point, in the sense of
`filepath.Base`, is not an engine name either, unless the path ends in a
separator (and so is not the path of a file). -/
theorem Base_resolveBin (bin : GoString) :
    (resolveBin bin).getLast? = some Separator ∨
    (Base (resolveBin bin) ≠ lit "go-turbo" ∧ Base (resolveBin bin) ≠ lit "go-turbo.exe") := by
  by_cases h : (resolveBin bin).getLast? = some Separator
  · exact Or.inl h
  · right
    by_cases hne : resolveBin bin = []
    · rw [hne]; decide
    · rw [Base_eq_fileName _ hne h]
      exact ⟨fileName_ne_of_no_suffix _ _ (resolveBin_no_suffix bin).1,
        fileName_ne_of_no_suffix _ _ (resolveBin_no_suffix bin).2⟩

/-! ## The daemon paths: lemmas -/

theorem isLowerHex_notSep (c : Byte) (h : isLowerHex c = true) : IsPathSeparator c = false := by
  revert c; decide

/-- The discriminator is a real path element. -/
theorem isName_getRepoHash (env : Env) (repoRoot : AbsoluteSystemPath) :
    IsName (getRepoHash env repoRoot) := by
  have hl := getRepoHash_length env repoRoot
  refine ⟨?_, ?_, ?_, ?_⟩
  · intro h; rw [h] at hl; simp at hl
  · intro b hb; exact isLowerHex_notSep b (getRepoHash_isLowerHex env repoRoot b hb)
  · intro h; rw [h] at hl; simp at hl
  · intro h; rw [h] at hl; simp at hl

theorem isName_turbod_sock : IsName (lit "turbod.sock") := by decide

theorem isName_turbod_pid : IsName (lit "turbod.pid") := by decide

theorem isName_logs : IsName (lit "logs") := by decide

theorem isName_dot_log : IsName (lit ".log") := by decide

theorem getDaemonFileRoot_eq (env : Env) (repoRoot : AbsoluteSystemPath) :
    getDaemonFileRoot env repoRoot
      = Join [env.TempDir (lit "turbod"), getRepoHash env repoRoot] := by
  simp only [getDaemonFileRoot]
  exact UntypedJoin_name _ (isName_getRepoHash env repoRoot)

theorem getUnixSocket_eq (env : Env) (repoRoot : AbsoluteSystemPath) :
    getUnixSocket env repoRoot = Join [getDaemonFileRoot env repoRoot, lit "turbod.sock"] := by
  simp only [getUnixSocket]
  exact UntypedJoin_name _ isName_turbod_sock

theorem getPidFile_eq (env : Env) (repoRoot : AbsoluteSystemPath) :
    getPidFile env repoRoot = Join [getDaemonFileRoot env repoRoot, lit "turbod.pid"] := by
  simp only [getPidFile]
  exact UntypedJoin_name _ isName_turbod_pid

theorem Clean_getDaemonFileRoot (env : Env) (repoRoot : AbsoluteSystemPath) :
    Clean (getDaemonFileRoot env repoRoot) = getDaemonFileRoot env repoRoot := by
  rw [getDaemonFileRoot_eq]
  exact Clean_Join_name _ (isName_getRepoHash env repoRoot)

/-- `filepath.Base` returns the separator alone or a non-empty string without
separator. -/
theorem Base_cases (p : GoString) :
    Base p = [Separator] ∨ (Base p ≠ [] ∧ ∀ x ∈ Base p, IsPathSeparator x = false) := by
  simp only [Base]
  split
  · right; decide
  · split
    · left; trivial
    · rename_i h
      right
      refine ⟨h, ?_⟩
      intro x hx
      simp only [afterLastSep, List.mem_reverse] at hx
      exact (notSep_eq_true x).mp (List.mem_takeWhile_imp hx)

/-- With a base name that is not the separator, the log file name is a real
path element. -/
theorem isName_logFilename (env : Env) (repoRoot : AbsoluteSystemPath) (base : GoString)
    (hb : ∀ x ∈ base, IsPathSeparator x = false) :
    IsName (logFilename (getRepoHash env repoRoot) base) := by
  have hl := getRepoHash_length env repoRoot
  have hlen : (logFilename (getRepoHash env repoRoot) base).length = 16 + 1 + base.length + 4 := by
    simp only [logFilename, List.length_append, hl]
    rfl
  refine ⟨?_, ?_, ?_, ?_⟩
  · intro h; rw [h] at hlen; simp at hlen
  · intro b hb2
    simp only [logFilename, List.mem_append] at hb2
    rcases hb2 with ((h | h) | h) | h
    · exact (isName_getRepoHash env repoRoot).2.1 b h
    · revert h; revert b; decide
    · exact hb b h
    · revert h; revert b; decide
  · intro h; rw [h] at hlen; simp at hlen
  · intro h; rw [h] at hlen; simp at hlen

theorem isName_hash_dash (env : Env) (repoRoot : AbsoluteSystemPath) :
    IsName (getRepoHash env repoRoot ++ lit "-") := by
  have hl := getRepoHash_length env repoRoot
  have hlen : (getRepoHash env repoRoot ++ lit "-").length = 17 := by
    simp only [List.length_append, hl]
    rfl
  refine ⟨?_, ?_, ?_, ?_⟩
  · intro h; rw [h] at hlen; simp at hlen
  · intro b hb2
    simp only [List.mem_append] at hb2
    rcases hb2 with h | h
    · exact (isName_getRepoHash env repoRoot).2.1 b h
    · revert h; revert b; decide
  · intro h; rw [h] at hlen; simp at hlen
  · intro h; rw [h] at hlen; simp at hlen

theorem Join_nil_name {N : GoString} (h : IsName N) : Join [[], N] = N := by
  have e : Join [[], N] = Join [N] := by simp [Join]
  rw [e, Join_single h]

/-- Two real elements separated by a separator are joined one after the other. -/
theorem Join_name_sep_name (d : GoString) (hd : d ≠ []) {A B : GoString} (hA : IsName A)
    (hB : IsName B) : Join [d, A ++ Separator :: B] = Join [Join [d, A], B] := by
  have hC := Canon.name _ _ (Canon.of_finalState d) hA
  have e : Join [d, A ++ Separator :: B] = Clean ((d ++ Separator :: A) ++ Separator :: B) := by
    simp [Join, hd, stringsJoin]
  rw [e, Clean_eq, finalState_append_sep _ _ (by simp [hd]),
    finalState_append_sep d A hd, isRooted_append d _ hd, run_name _ hA, run_name _ hB,
    outOrDot_realElem _ hB, Join_name (Join [d, A]) hB, Join_name d hA,
    hC.finalState_out, hC.isRooted_out]

theorem Clean_name_sep_name {A B : GoString} (hA : IsName A) (hB : IsName B) :
    Clean (A ++ Separator :: B) = A ++ Separator :: B := by
  have e : Clean (A ++ Separator :: B) = Join [A, B] := by
    simp [Join, hA.1, stringsJoin]
  have e2 := Join_Join_name [] hA hB
  rw [Join_nil_name hA] at e2
  rw [e, e2]

theorem UntypedJoin_logs (p : AbsoluteSystemPath) :
    p.UntypedJoin [lit "logs"] = Join [p, lit "logs"] :=
  UntypedJoin_name p isName_logs

/-- The log path of a repository root whose base name is not the separator:
directly inside the logs directory, named `<discriminator>-<base>.log`. -/
theorem getLogFilePath_of_base (Error : Type) (env : Env) (repoRoot : AbsoluteSystemPath)
    (hb : repoRoot.Base ≠ [Separator]) :
    Dir (getLogFilePath Error env repoRoot).1 = env.GetTurboDataDir.UntypedJoin [lit "logs"] ∧
    Base (getLogFilePath Error env repoRoot).1
      = logFilename (getRepoHash env repoRoot) repoRoot.Base ∧
    fileName (getLogFilePath Error env repoRoot).1
      = logFilename (getRepoHash env repoRoot) repoRoot.Base ∧
    (getLogFilePath Error env repoRoot).1
      = env.GetTurboDataDir.UntypedJoin [lit "logs"] ++ lit "/"
          ++ logFilename (getRepoHash env repoRoot) repoRoot.Base := by
  have hbase : ∀ x ∈ repoRoot.Base, IsPathSeparator x = false := by
    rcases Base_cases repoRoot.ToString with h | h
    · exact absurd h hb
    · exact h.2
  have hN := isName_logFilename env repoRoot repoRoot.Base hbase
  have e : (getLogFilePath Error env repoRoot).1
      = Join [Join [env.GetTurboDataDir, lit "logs"],
          logFilename (getRepoHash env repoRoot) repoRoot.Base] := by
    simp only [getLogFilePath]
    rw [UntypedJoin_name _ hN, UntypedJoin_logs]
  rw [e, UntypedJoin_logs]
  refine ⟨?_, Base_Join_name _ hN, fileName_Join_name _ hN, ?_⟩
  · rw [Dir_Join_name _ hN, Clean_Join_name _ isName_logs]
  · rw [Join_Join_name _ isName_logs hN]
    simp [lit]
    rfl

theorem Join_name_ne_nil (d : GoString) {N : GoString} (h : IsName N) : Join [d, N] ≠ [] := by
  rw [← Clean_Join_name d h]; exact Clean_ne_nil _

theorem logFilename_root (hexHash : GoString) :
    logFilename hexHash (lit "/") = (hexHash ++ lit "-") ++ Separator :: lit ".log" := by
  have e : lit "/" = [Separator] := by decide
  simp only [logFilename, e, List.append_assoc, List.singleton_append]

/-- The log path of the filesystem root: the base name `/` splits the intended
file name, so the file is `.log` inside the directory `<discriminator>-` of the
logs directory. -/
theorem getLogFilePath_root (Error : Type) (env : Env) :
    (getLogFilePath Error env (lit "/")).1
      = Join [Join [env.GetTurboDataDir.UntypedJoin [lit "logs"],
          getRepoHash env (lit "/") ++ lit "-"], lit ".log"] := by
  have hA := isName_hash_dash env (lit "/")
  have hB := isName_dot_log
  have hbase : AbsoluteSystemPath.Base (lit "/") = lit "/" := by decide
  have hne : logFilename (getRepoHash env (lit "/")) (lit "/") ≠ [] := by
    rw [logFilename_root]; simp
  have e1 : Join [logFilename (getRepoHash env (lit "/")) (lit "/")]
      = logFilename (getRepoHash env (lit "/")) (lit "/") := by
    have : Join [logFilename (getRepoHash env (lit "/")) (lit "/")]
        = Clean (logFilename (getRepoHash env (lit "/")) (lit "/")) := by
      simp [Join, hne, stringsJoin]
    rw [this, logFilename_root, Clean_name_sep_name hA hB]
  simp only [getLogFilePath, hbase]
  rw [UntypedJoin_logs]
  simp only [AbsoluteSystemPath.UntypedJoin, AbsoluteSystemPath.ToString]
  rw [e1, logFilename_root,
    Join_name_sep_name _ (Join_name_ne_nil _ isName_logs) hA hB]

theorem append_cons_ne_self {α : Type} (l m : List α) (x : α) : l ++ x :: m ≠ l := by
  intro h
  have := congrArg List.length h
  simp at this

/-- The example of the specification: with discriminator `a1b2c3d4e5f60718`
the log path of `/home/u/proj` is `<logs dir>/a1b2c3d4e5f60718-proj.log`. -/
theorem getLogFilePath_example (Error : Type) (env : Env)
    (h : getRepoHash env (lit "/home/u/proj") = lit "a1b2c3d4e5f60718") :
    (getLogFilePath Error env (lit "/home/u/proj")).1
      = env.GetTurboDataDir.UntypedJoin [lit "logs"] ++ lit "/a1b2c3d4e5f60718-proj.log" := by
  have hb : AbsoluteSystemPath.Base (lit "/home/u/proj") = lit "proj" := by decide
  have h4 := (getLogFilePath_of_base Error env (lit "/home/u/proj")
    (by rw [hb]; decide)).2.2.2
  rw [h4, hb, h, List.append_assoc]
  rfl

/-- The log path of a repository root whose base name is the separator. -/
theorem getLogFilePath_of_base_sep (Error : Type) (env : Env) (repoRoot : AbsoluteSystemPath)
    (hb : repoRoot.Base = [Separator]) :
    (getLogFilePath Error env repoRoot).1
      = Join [Join [env.GetTurboDataDir.UntypedJoin [lit "logs"],
          getRepoHash env repoRoot ++ lit "-"], lit ".log"] := by
  have hA := isName_hash_dash env repoRoot
  have hB := isName_dot_log
  have hsep : [Separator] = lit "/" := by decide
  have hne : logFilename (getRepoHash env repoRoot) (lit "/") ≠ [] := by
    rw [logFilename_root]; simp
  have e1 : Join [logFilename (getRepoHash env repoRoot) (lit "/")]
      = logFilename (getRepoHash env repoRoot) (lit "/") := by
    have : Join [logFilename (getRepoHash env repoRoot) (lit "/")]
        = Clean (logFilename (getRepoHash env repoRoot) (lit "/")) := by
      simp [Join, hne, stringsJoin]
    rw [this, logFilename_root, Clean_name_sep_name hA hB]
  simp only [getLogFilePath, hb, hsep]
  rw [UntypedJoin_logs]
  simp only [AbsoluteSystemPath.UntypedJoin, AbsoluteSystemPath.ToString]
  rw [e1, logFilename_root,
    Join_name_sep_name _ (Join_name_ne_nil _ isName_logs) hA hB]

/-- For every repository root the log path is the logs directory, a separator
and the formatted file name, as a string. -/
theorem getLogFilePath_eq_append (Error : Type) (env : Env) (repoRoot : AbsoluteSystemPath) :
    (getLogFilePath Error env repoRoot).1
      = env.GetTurboDataDir.UntypedJoin [lit "logs"]
          ++ Separator :: logFilename (getRepoHash env repoRoot) repoRoot.Base := by
  by_cases hb : repoRoot.Base = [Separator]
  · have hsep : [Separator] = lit "/" := by decide
    rw [getLogFilePath_of_base_sep Error env repoRoot hb, hb, hsep, logFilename_root,
      UntypedJoin_logs, Join_Join_name _ (isName_hash_dash env repoRoot) isName_dot_log,
      Join_Join_name _ isName_logs (isName_hash_dash env repoRoot)]
    simp
  · have h4 := (getLogFilePath_of_base Error env repoRoot hb).2.2.2
    rw [h4]
    have hsep : lit "/" = [Separator] := by decide
    rw [hsep]
    simp

theorem logFilename_inj_hash {h1 h2 b1 b2 : GoString} (hl : h1.length = h2.length)
    (he : logFilename h1 b1 = logFilename h2 b2) : h1 = h2 := by
  simp only [logFilename, List.append_assoc] at he
  exact List.append_inj_left he hl

theorem Join_name_eq_append (d : GoString) {N : GoString} (h : IsName N) :
    Join [d, N] = (finalState d).out ++ sepIf (isRooted d) (finalState d) ++ N := by
  rw [Join_name d h, realElem_name _ h]

/-- Joining a cleaned path other than `.` that does not end in a separator with
a real element appends a separator and the element. -/
theorem Join_clean_name (T : GoString) (hc : Clean T = T)
    (hs : T.getLast? ≠ some Separator) (hd : T ≠ lit ".") {N : GoString} (h : IsName N) :
    Join [T, N] = T ++ Separator :: N := by
  have hC := Canon.of_finalState T
  have hT : T = (finalState T).out := by
    have e := Clean_eq T
    rw [hc] at e
    simp only [outOrDot] at e
    split at e
    · exact absurd e hd
    · exact e
  have hsep : sepIf (isRooted T) (finalState T) = [Separator] := by
    rcases sepIf_cases (isRooted T) (finalState T) with ⟨h1, _⟩ | ⟨h1, _⟩
    · exact h1
    · exfalso
      have hi := hC.eq_init_of_sepIf_nil h1
      rw [hi] at hT
      cases hr : isRooted T with
      | false =>
        rw [hr] at hT
        have hn := Clean_ne_nil T
        rw [hc] at hn
        exact hn hT
      | true =>
        rw [hr] at hT
        apply hs
        rw [hT]
        rfl
  rw [Join_name_eq_append T h, hsep, ← hT]
  simp

theorem getUnixSocket_eq_append (env : Env) (repoRoot : AbsoluteSystemPath) :
    getUnixSocket env repoRoot
      = getDaemonFileRoot env repoRoot ++ Separator :: lit "turbod.sock" := by
  rw [getUnixSocket_eq, getDaemonFileRoot_eq,
    Join_Join_name _ (isName_getRepoHash env repoRoot) isName_turbod_sock]

/-- The length of the socket path in terms of the loop state of `Clean` on the
temp directory: it does not mention the repository root. -/
theorem getUnixSocket_length (env : Env) (repoRoot : AbsoluteSystemPath) :
    (getUnixSocket env repoRoot).length
      = (finalState (env.TempDir (lit "turbod"))).out.length
        + (sepIf (isRooted (env.TempDir (lit "turbod")))
            (finalState (env.TempDir (lit "turbod")))).length + 28 := by
  rw [getUnixSocket_eq_append, getDaemonFileRoot_eq,
    Join_name_eq_append _ (isName_getRepoHash env repoRoot)]
  simp only [List.length_append, List.length_cons, getRepoHash_length]
  have : (lit "turbod.sock").length = 11 := by decide
  rw [this]

/-- The socket path when the temp directory `T` for namespace `turbod` is a
clean path other than `.` that does not end in a separator: `T`, a separator,
the discriminator, a separator and `turbod.sock`, of length `len(T) + 29`; the
length is the same for every repository root. -/
theorem getUnixSocket_of_clean_temp_dir (env : Env) (repoRoot : AbsoluteSystemPath)
    (hc : Clean (env.TempDir (lit "turbod")) = env.TempDir (lit "turbod"))
    (hs : (env.TempDir (lit "turbod")).getLast? ≠ some Separator)
    (hd : env.TempDir (lit "turbod") ≠ lit ".") :
    (∀ other : AbsoluteSystemPath,
      (getUnixSocket env other).length = (getUnixSocket env repoRoot).length) ∧
    getUnixSocket env repoRoot
      = env.TempDir (lit "turbod") ++ lit "/" ++ getRepoHash env repoRoot ++ lit "/turbod.sock" ∧
    (getUnixSocket env repoRoot).length = (env.TempDir (lit "turbod")).length + 29 ∧
    ((env.TempDir (lit "turbod")).length ≤ 79 → (getUnixSocket env repoRoot).length ≤ 108) := by
  have hstr : getUnixSocket env repoRoot
      = env.TempDir (lit "turbod") ++ lit "/" ++ getRepoHash env repoRoot
          ++ lit "/turbod.sock" := by
    rw [getUnixSocket_eq_append, getDaemonFileRoot_eq,
      Join_clean_name _ hc hs hd (isName_getRepoHash env repoRoot)]
    have e1 : lit "/" = [Separator] := by decide
    have e2 : lit "/turbod.sock" = Separator :: lit "turbod.sock" := by decide
    rw [e1, e2]
    simp
  have hlen : (getUnixSocket env repoRoot).length = (env.TempDir (lit "turbod")).length + 29 := by
    rw [hstr]
    simp only [List.length_append, getRepoHash_length]
    have e1 : (lit "/").length = 1 := by decide
    have e2 : (lit "/turbod.sock").length = 12 := by decide
    rw [e1, e2]
  refine ⟨?_, hstr, hlen, ?_⟩
  · intro other
    rw [getUnixSocket_length, getUnixSocket_length]
  · intro h
    rw [hlen]
    omega

theorem IsAbs_ne_dot (T : GoString) (h : IsAbs T = true) : T ≠ lit "." := by
  intro e
  rw [e] at h
  revert h
  decide

/-- A temp directory laid out as `<temp>/turbod`, the join of any path with the
namespace, is clean, does not end in a separator and is not `.`, so the socket
path has length `len(T) + 29`. -/
theorem getUnixSocket_of_temp_dir_layout (env : Env) (repoRoot : AbsoluteSystemPath)
    (x : GoString) (h : env.TempDir (lit "turbod") = Join [x, lit "turbod"]) :
    (getUnixSocket env repoRoot).length = (env.TempDir (lit "turbod")).length + 29 := by
  have hN : IsName (lit "turbod") := by decide
  have hc : Clean (env.TempDir (lit "turbod")) = env.TempDir (lit "turbod") := by
    rw [h]; exact Clean_Join_name x hN
  have hs : (env.TempDir (lit "turbod")).getLast? ≠ some Separator := by
    obtain ⟨pre, _, e⟩ := Join_name_pre x hN
    rw [h, e, getLast?_append_ne_nil pre _ hN.1]
    decide
  have hd : env.TempDir (lit "turbod") ≠ lit "." := by
    intro e
    have hb := Base_Join_name x hN
    rw [← h, e] at hb
    revert hb
    decide
  exact (getUnixSocket_of_clean_temp_dir env repoRoot hc hs hd).2.2.1

/-- With the relative temp directory `.`, which is not absolute,
`filepath.Join` drops the `.` element and the socket path is
`<discriminator>/turbod.sock`. -/
theorem getUnixSocket_relative_dot :
    IsAbs (lit ".") = false ∧
    getUnixSocket (sampleEnv (lit ".")) (lit "/a") = lit "0202020202020202/turbod.sock" := by
  decide

/-! ## Claims -/

/-- C1: for every repository root and whatever the 32-byte digest of its bytes
is, `getRepoHash` returns exactly 16 bytes, each a lowercase hexadecimal digit
(`0-9`, `a-f`); the slice `[:16]` it takes is within the 64 encoded bytes. -/
theorem C1_getRepoHash_sixteen_lower_hex (env : Env) (repoRoot : AbsoluteSystemPath) :
    16 ≤ (EncodeToString (env.Sum256 repoRoot.ToString).bytes).length ∧
    (getRepoHash env repoRoot).length = 16 ∧
    ∀ c ∈ getRepoHash env repoRoot, isLowerHex c = true ∧ c ∈ lit "0123456789abcdef" := by
  refine ⟨?_, getRepoHash_length env repoRoot, ?_⟩
  · rw [EncodeToString_digest_length]; decide
  · intro c hc
    have h := getRepoHash_isLowerHex env repoRoot c hc
    exact ⟨h, isLowerHex_mem_hextable c h⟩

/-- C2: for every repository root, `getRepoHash` (hex-encode the whole digest,
keep the first 16 bytes) equals the hexadecimal encoding of the first 8 bytes
of the digest of the path's bytes. -/
theorem C2_getRepoHash_eq_hex_of_first_eight (env : Env) (repoRoot : AbsoluteSystemPath) :
    getRepoHash env repoRoot = discriminatorSpec env repoRoot := by
  simp only [getRepoHash, discriminatorSpec, EncodeToString]
  exact Encode_take _ 8

/-- C3 (as stated, refuted): the path `/usr/local/bin/foo-go-turbo` has the
file name `foo-go-turbo`, which is neither `go-turbo` nor `go-turbo.exe`, yet
the binary resolution step rewrites it to `/usr/local/bin/turbo`. -/
theorem C3_counterexample_filename_not_engine_yet_rewritten :
    fileName (lit "/usr/local/bin/foo-go-turbo") = lit "foo-go-turbo" ∧
    Base (lit "/usr/local/bin/foo-go-turbo") = lit "foo-go-turbo" ∧
    lit "foo-go-turbo" ≠ lit "go-turbo" ∧ lit "foo-go-turbo" ≠ lit "go-turbo.exe" ∧
    resolveBin (lit "/usr/local/bin/foo-go-turbo") = lit "/usr/local/bin/turbo" ∧
    resolveBin (lit "/usr/local/bin/foo-go-turbo") ≠ lit "/usr/local/bin/foo-go-turbo" := by
  decide

/-- C3 (amended): for every executable path that does not end in the bytes
`go-turbo` nor in the bytes `go-turbo.exe` (the suffix test of the code, on the
whole path), the binary resolution step returns the input path unchanged. -/
theorem C3_resolveBin_unchanged_without_engine_suffix (bin : GoString)
    (h1 : HasSuffix bin (lit "go-turbo") = false)
    (h2 : HasSuffix bin (lit "go-turbo.exe") = false) : resolveBin bin = bin :=
  resolveBin_of_no_suffix bin h1 h2

/-- C3 (amended), at the path `/usr/local/bin/turbo`. -/
theorem C3_resolveBin_unchanged_witness :
    HasSuffix (lit "/usr/local/bin/turbo") (lit "go-turbo") = false ∧
    HasSuffix (lit "/usr/local/bin/turbo") (lit "go-turbo.exe") = false ∧
    resolveBin (lit "/usr/local/bin/turbo") = lit "/usr/local/bin/turbo" :=
  ⟨by decide, by decide,
    C3_resolveBin_unchanged_without_engine_suffix (lit "/usr/local/bin/turbo")
      (by decide) (by decide)⟩

/-- C4: for every directory `d`, the binary resolution step maps the path of
`go-turbo` in `d` (`filepath.Join(d, "go-turbo")`) to the path of `turbo` in
`d`, the path of `go-turbo.exe` in `d` to the path of `turbo.exe` in `d`, and
the path of `turbo` in `d` to itself; `/usr/local/bin/go-turbo` becomes
`/usr/local/bin/turbo`, `/usr/local/bin/go-turbo.exe` becomes
`/usr/local/bin/turbo.exe` and `/usr/local/bin/turbo` is unchanged. -/
theorem C4_resolveBin_engine_to_wrapper_same_directory :
    (∀ d : GoString, resolveBin (Join [d, lit "go-turbo"]) = Join [d, lit "turbo"]) ∧
    (∀ d : GoString, resolveBin (Join [d, lit "go-turbo.exe"]) = Join [d, lit "turbo.exe"]) ∧
    (∀ d : GoString, resolveBin (Join [d, lit "turbo"]) = Join [d, lit "turbo"]) ∧
    resolveBin (lit "/usr/local/bin/go-turbo") = lit "/usr/local/bin/turbo" ∧
    resolveBin (lit "/usr/local/bin/go-turbo.exe") = lit "/usr/local/bin/turbo.exe" ∧
    resolveBin (lit "/usr/local/bin/turbo") = lit "/usr/local/bin/turbo" :=
  ⟨resolveBin_Join_go_turbo, resolveBin_Join_go_turbo_exe, resolveBin_Join_turbo,
    by decide, by decide, by decide⟩

/-- C5: for every repository root, the socket path and the pid path have the
same parent directory, which is `getDaemonFileRoot(repoRoot)`, the join of the
temp directory for namespace `turbod` with the discriminator (its parent is the
cleaned temp directory, its last element the discriminator); the last elements
of the two paths are `turbod.sock` and `turbod.pid`, each written after the
root and one separator. -/
theorem C5_socket_and_pid_share_daemon_file_root (env : Env) (repoRoot : AbsoluteSystemPath) :
    Dir (getUnixSocket env repoRoot) = getDaemonFileRoot env repoRoot ∧
    Dir (getPidFile env repoRoot) = getDaemonFileRoot env repoRoot ∧
    Dir (getUnixSocket env repoRoot) = Dir (getPidFile env repoRoot) ∧
    getDaemonFileRoot env repoRoot
      = Join [env.TempDir (lit "turbod"), getRepoHash env repoRoot] ∧
    Dir (getDaemonFileRoot env repoRoot) = Clean (env.TempDir (lit "turbod")) ∧
    Base (getDaemonFileRoot env repoRoot) = getRepoHash env repoRoot ∧
    Base (getUnixSocket env repoRoot) = lit "turbod.sock" ∧
    Base (getPidFile env repoRoot) = lit "turbod.pid" ∧
    getUnixSocket env repoRoot = getDaemonFileRoot env repoRoot ++ lit "/turbod.sock" ∧
    getPidFile env repoRoot = getDaemonFileRoot env repoRoot ++ lit "/turbod.pid" := by
  have hh := isName_getRepoHash env repoRoot
  have hs : Dir (getUnixSocket env repoRoot) = getDaemonFileRoot env repoRoot := by
    rw [getUnixSocket_eq, Dir_Join_name _ isName_turbod_sock, Clean_getDaemonFileRoot]
  have hp : Dir (getPidFile env repoRoot) = getDaemonFileRoot env repoRoot := by
    rw [getPidFile_eq, Dir_Join_name _ isName_turbod_pid, Clean_getDaemonFileRoot]
  refine ⟨hs, hp, hs.trans hp.symm, getDaemonFileRoot_eq env repoRoot, ?_, ?_, ?_, ?_, ?_, ?_⟩
  · rw [getDaemonFileRoot_eq, Dir_Join_name _ hh]
  · rw [getDaemonFileRoot_eq, Base_Join_name _ hh]
  · rw [getUnixSocket_eq, Base_Join_name _ isName_turbod_sock]
  · rw [getPidFile_eq, Base_Join_name _ isName_turbod_pid]
  · rw [getUnixSocket_eq, getDaemonFileRoot_eq, Join_Join_name _ hh isName_turbod_sock]
    rfl
  · rw [getPidFile_eq, getDaemonFileRoot_eq, Join_Join_name _ hh isName_turbod_pid]
    rfl

/-- C6 (at the filesystem root): with repository root `/` the base name is the
separator, and `getLogFilePath` returns the logs directory followed by
`/<discriminator>-` and `/.log`: the parent directory is
`<logs dir>/<discriminator>-`, not the logs directory, and the last element is
`.log`, not the intended file name `<discriminator>-<base>.log`. -/
theorem C6_getLogFilePath_at_filesystem_root (Error : Type) (env : Env) :
    AbsoluteSystemPath.Base (lit "/") = lit "/" ∧
    (getLogFilePath Error env (lit "/")).1
      = env.GetTurboDataDir.UntypedJoin [lit "logs"] ++ lit "/"
          ++ getRepoHash env (lit "/") ++ lit "-/.log" ∧
    Dir (getLogFilePath Error env (lit "/")).1
      = env.GetTurboDataDir.UntypedJoin [lit "logs"] ++ lit "/"
          ++ getRepoHash env (lit "/") ++ lit "-" ∧
    Dir (getLogFilePath Error env (lit "/")).1 ≠ env.GetTurboDataDir.UntypedJoin [lit "logs"] ∧
    Base (getLogFilePath Error env (lit "/")).1 = lit ".log" ∧
    fileName (getLogFilePath Error env (lit "/")).1 = lit ".log" ∧
    lit ".log" ≠ logFilename (getRepoHash env (lit "/")) (AbsoluteSystemPath.Base (lit "/")) := by
  have hA := isName_hash_dash env (lit "/")
  have hB := isName_dot_log
  have hl := getRepoHash_length env (lit "/")
  have hJ : Join [env.GetTurboDataDir.UntypedJoin [lit "logs"], getRepoHash env (lit "/") ++ lit "-"]
      = env.GetTurboDataDir.UntypedJoin [lit "logs"] ++ lit "/"
          ++ getRepoHash env (lit "/") ++ lit "-" := by
    rw [UntypedJoin_logs, Join_Join_name _ isName_logs hA]
    have e : lit "/" = [Separator] := by decide
    simp [e]
  have hD : Dir (getLogFilePath Error env (lit "/")).1
      = env.GetTurboDataDir.UntypedJoin [lit "logs"] ++ lit "/"
          ++ getRepoHash env (lit "/") ++ lit "-" := by
    rw [getLogFilePath_root, Dir_Join_name _ hB, Clean_Join_name _ hA, hJ]
  refine ⟨by decide, ?_, hD, ?_, ?_, ?_, ?_⟩
  · rw [getLogFilePath_root]
    rw [UntypedJoin_logs] at hJ ⊢
    rw [Join_Join_name _ hA hB, hJ]
    have e : lit "-/.log" = lit "-" ++ Separator :: lit ".log" := by decide
    simp [e]
  · rw [hD]
    have e : lit "/" = [Separator] := by decide
    rw [e]
    simp only [List.append_assoc, List.singleton_append]
    exact append_cons_ne_self _ _ _
  · rw [getLogFilePath_root, Base_Join_name _ hB]
  · rw [getLogFilePath_root, fileName_Join_name _ hB]
  · intro h
    have := congrArg List.length h
    simp only [logFilename, List.length_append, hl] at this
    revert this
    decide

/-- C7: `GetClient` does not call the connector's `Connect` unless both
fallible resolution steps succeeded: whenever log-path resolution returns an
error, or it succeeds and `os.Executable` returns an error, the result is a nil
client together with that same error and no call to `Connect` is made; this
holds for the body of `GetClient` on any results of the two steps and for
`GetClient` itself when `os.Executable` fails. -/
theorem C7_GetClient_no_connect_after_resolution_error
    {Logger Opts Client Context Error : Type} (env : Env)
    (host : Host Logger Opts Client Context Error)
    (sockPath pidPath logPath : AbsoluteSystemPath) (bin : GoString)
    (exeErr : Option Error) (ctx : Context) (repoRoot : AbsoluteSystemPath) (logger : Logger)
    (turboVersion : GoString) (opts : Opts) (e : Error) :
    GetClientFrom host sockPath pidPath (logPath, some e) (bin, exeErr)
        ctx logger turboVersion opts
      = { client := none, err := some e, connectCalls := [] } ∧
    GetClientFrom host sockPath pidPath (logPath, none) (bin, some e)
        ctx logger turboVersion opts
      = { client := none, err := some e, connectCalls := [] } ∧
    GetClient env { host with Executable := (bin, some e) } ctx repoRoot logger turboVersion opts
      = { client := none, err := some e, connectCalls := [] } :=
  ⟨rfl, rfl, rfl⟩

/-- C8: whenever resolution succeeds, the result of `GetClient` (client and
error) is exactly the result of the connector's `Connect`, called once, with
the caller's context, on the descriptor with `Logger = logger.Named("TurbodClient")`,
`Bin` the resolved entry point, `Opts` the caller's options,
`SockPath = getUnixSocket(repoRoot)`, `PidPath = getPidFile(repoRoot)`,
`LogPath` the resolved log path and `TurboVersion` the caller's version string. -/
theorem C8_GetClient_delegates_to_Connect
    {Logger Opts Client Context Error : Type} (env : Env)
    (host : Host Logger Opts Client Context Error) (bin : GoString)
    (ctx : Context) (repoRoot : AbsoluteSystemPath) (logger : Logger)
    (turboVersion : GoString) (opts : Opts) :
    GetClient env { host with Executable := (bin, none) } ctx repoRoot logger turboVersion opts
      = { client := (host.Connect ctx
            { Logger := host.Named logger (lit "TurbodClient")
              Bin := resolveBin bin
              Opts := opts
              SockPath := getUnixSocket env repoRoot
              PidPath := getPidFile env repoRoot
              LogPath := (getLogFilePath Error env repoRoot).1
              TurboVersion := turboVersion }).1
          err := (host.Connect ctx
            { Logger := host.Named logger (lit "TurbodClient")
              Bin := resolveBin bin
              Opts := opts
              SockPath := getUnixSocket env repoRoot
              PidPath := getPidFile env repoRoot
              LogPath := (getLogFilePath Error env repoRoot).1
              TurboVersion := turboVersion }).2
          connectCalls := [(ctx,
            { Logger := host.Named logger (lit "TurbodClient")
              Bin := resolveBin bin
              Opts := opts
              SockPath := getUnixSocket env repoRoot
              PidPath := getPidFile env repoRoot
              LogPath := (getLogFilePath Error env repoRoot).1
              TurboVersion := turboVersion })] } :=
  rfl

/-- C9: the discriminator and the socket, pid and log paths are functions of
the repository root and of the providers (hash, temp directory, data
directory) alone: two runs of `GetClient` with the same providers and the same
repository root, whatever their hosts (running executable, logger factory,
connector), contexts, loggers, tool versions and options, hand the connector
the same socket, pid and log path, namely `getUnixSocket`, `getPidFile` and
`getLogFilePath` of the root; the discriminator does not depend on the two
directories, the socket and pid paths do not depend on the data directory and
the log path does not depend on the temp directory. -/
theorem C9_paths_determined_by_root_and_providers
    {Logger Opts Client Context Error : Type} (env : Env)
    (host1 host2 : Host Logger Opts Client Context Error) (bin1 bin2 : GoString)
    (ctx1 ctx2 : Context) (repoRoot : AbsoluteSystemPath) (logger1 logger2 : Logger)
    (turboVersion1 turboVersion2 : GoString) (opts1 opts2 : Opts) :
    (GetClient env { host1 with Executable := (bin1, none) } ctx1 repoRoot logger1
        turboVersion1 opts1).connectCalls.map
        (fun c => (c.2.SockPath, c.2.PidPath, c.2.LogPath))
      = [(getUnixSocket env repoRoot, getPidFile env repoRoot,
          (getLogFilePath Error env repoRoot).1)] ∧
    (GetClient env { host1 with Executable := (bin1, none) } ctx1 repoRoot logger1
        turboVersion1 opts1).connectCalls.map
        (fun c => (c.2.SockPath, c.2.PidPath, c.2.LogPath))
      = (GetClient env { host2 with Executable := (bin2, none) } ctx2 repoRoot logger2
        turboVersion2 opts2).connectCalls.map
        (fun c => (c.2.SockPath, c.2.PidPath, c.2.LogPath)) ∧
    (∀ (tempDir2 : GoString → AbsoluteSystemPath) (dataDir2 : AbsoluteSystemPath),
      getRepoHash { env with TempDir := tempDir2, GetTurboDataDir := dataDir2 } repoRoot
        = getRepoHash env repoRoot ∧
      getUnixSocket { env with GetTurboDataDir := dataDir2 } repoRoot
        = getUnixSocket env repoRoot ∧
      getPidFile { env with GetTurboDataDir := dataDir2 } repoRoot
        = getPidFile env repoRoot ∧
      (getLogFilePath Error { env with TempDir := tempDir2 } repoRoot).1
        = (getLogFilePath Error env repoRoot).1) :=
  ⟨rfl, rfl, fun _ _ => ⟨rfl, rfl, rfl, rfl⟩⟩

/-- C10: for every executable path, the resolved entry point does not have the
engine file name: its file name (the component after the last separator) is
neither `go-turbo` nor `go-turbo.exe`, the path does not even end in these
bytes, its `filepath.Base` is neither of them unless the path ends in a
separator, and applying the resolution step a second time changes nothing. -/
theorem C10_resolveBin_never_engine_and_idempotent (bin : GoString) :
    fileName (resolveBin bin) ≠ lit "go-turbo" ∧
    fileName (resolveBin bin) ≠ lit "go-turbo.exe" ∧
    HasSuffix (resolveBin bin) (lit "go-turbo") = false ∧
    HasSuffix (resolveBin bin) (lit "go-turbo.exe") = false ∧
    ((resolveBin bin).getLast? = some Separator ∨
      (Base (resolveBin bin) ≠ lit "go-turbo" ∧ Base (resolveBin bin) ≠ lit "go-turbo.exe")) ∧
    resolveBin (resolveBin bin) = resolveBin bin :=
  ⟨fileName_ne_of_no_suffix _ _ (resolveBin_no_suffix bin).1,
    fileName_ne_of_no_suffix _ _ (resolveBin_no_suffix bin).2,
    (resolveBin_no_suffix bin).1, (resolveBin_no_suffix bin).2, Base_resolveBin bin,
    resolveBin_of_no_suffix _ (resolveBin_no_suffix bin).1 (resolveBin_no_suffix bin).2⟩

/-- C11: for any two repository roots whose discriminators differ, with the
same temp and data directories, the socket paths differ, the pid paths differ
and the log paths differ, whatever the base names of the two roots are. -/
theorem C11_distinct_discriminators_give_distinct_paths (Error : Type) (env : Env)
    (repoRoot1 repoRoot2 : AbsoluteSystemPath)
    (h : getRepoHash env repoRoot1 ≠ getRepoHash env repoRoot2) :
    getUnixSocket env repoRoot1 ≠ getUnixSocket env repoRoot2 ∧
    getPidFile env repoRoot1 ≠ getPidFile env repoRoot2 ∧
    (getLogFilePath Error env repoRoot1).1 ≠ (getLogFilePath Error env repoRoot2).1 := by
  have hroot : getDaemonFileRoot env repoRoot1 ≠ getDaemonFileRoot env repoRoot2 := by
    intro e
    apply h
    have := congrArg Base e
    rwa [getDaemonFileRoot_eq, getDaemonFileRoot_eq,
      Base_Join_name _ (isName_getRepoHash env repoRoot1),
      Base_Join_name _ (isName_getRepoHash env repoRoot2)] at this
  refine ⟨?_, ?_, ?_⟩
  · intro e
    apply hroot
    have := congrArg Dir e
    rwa [getUnixSocket_eq, getUnixSocket_eq, Dir_Join_name _ isName_turbod_sock,
      Dir_Join_name _ isName_turbod_sock, Clean_getDaemonFileRoot,
      Clean_getDaemonFileRoot] at this
  · intro e
    apply hroot
    have := congrArg Dir e
    rwa [getPidFile_eq, getPidFile_eq, Dir_Join_name _ isName_turbod_pid,
      Dir_Join_name _ isName_turbod_pid, Clean_getDaemonFileRoot,
      Clean_getDaemonFileRoot] at this
  · intro e
    apply h
    rw [getLogFilePath_eq_append, getLogFilePath_eq_append] at e
    have e2 := List.cons_injective (List.append_cancel_left e)
    exact logFilename_inj_hash
      ((getRepoHash_length env repoRoot1).trans (getRepoHash_length env repoRoot2).symm) e2

/-- C11, at the roots `/a` and `/bb` with the stand-in hash. -/
theorem C11_distinct_paths_witness :
    getRepoHash (sampleEnv (lit "/tmp/turbod")) (lit "/a")
      ≠ getRepoHash (sampleEnv (lit "/tmp/turbod")) (lit "/bb") ∧
    getUnixSocket (sampleEnv (lit "/tmp/turbod")) (lit "/a")
      ≠ getUnixSocket (sampleEnv (lit "/tmp/turbod")) (lit "/bb") ∧
    getPidFile (sampleEnv (lit "/tmp/turbod")) (lit "/a")
      ≠ getPidFile (sampleEnv (lit "/tmp/turbod")) (lit "/bb") ∧
    (getLogFilePath Unit (sampleEnv (lit "/tmp/turbod")) (lit "/a")).1
      ≠ (getLogFilePath Unit (sampleEnv (lit "/tmp/turbod")) (lit "/bb")).1 :=
  ⟨by decide,
    C11_distinct_discriminators_give_distinct_paths Unit (sampleEnv (lit "/tmp/turbod"))
      (lit "/a") (lit "/bb") (by decide)⟩

/-- C12: the length of the socket path does not depend on the repository root:
for every repository root, when the temp directory `T` returned for namespace
`turbod` (an `AbsoluteSystemPath`, so an absolute path) is a clean path not
ending in a separator, the socket path is `T`, a separator, the discriminator,
a separator and `turbod.sock`, so `len(getUnixSocket(repoRoot)) = len(T) + 29`,
and the socket path is within 108 bytes whenever `len(T) <= 79`. -/
theorem C12_socket_path_length_absolute_clean_temp_dir (env : Env)
    (repoRoot : AbsoluteSystemPath)
    (habs : IsAbs (env.TempDir (lit "turbod")) = true)
    (hc : Clean (env.TempDir (lit "turbod")) = env.TempDir (lit "turbod"))
    (hs : (env.TempDir (lit "turbod")).getLast? ≠ some Separator) :
    (∀ other : AbsoluteSystemPath,
      (getUnixSocket env other).length = (getUnixSocket env repoRoot).length) ∧
    getUnixSocket env repoRoot
      = env.TempDir (lit "turbod") ++ lit "/" ++ getRepoHash env repoRoot ++ lit "/turbod.sock" ∧
    (getUnixSocket env repoRoot).length = (env.TempDir (lit "turbod")).length + 29 ∧
    ((env.TempDir (lit "turbod")).length ≤ 79 → (getUnixSocket env repoRoot).length ≤ 108) :=
  getUnixSocket_of_clean_temp_dir env repoRoot hc hs (IsAbs_ne_dot _ habs)

/-- C12, at the temp directory `/tmp/turbod` and the root `/a`. -/
theorem C12_socket_path_length_witness :
    IsAbs ((sampleEnv (lit "/tmp/turbod")).TempDir (lit "turbod")) = true ∧
    Clean ((sampleEnv (lit "/tmp/turbod")).TempDir (lit "turbod"))
      = (sampleEnv (lit "/tmp/turbod")).TempDir (lit "turbod") ∧
    ((sampleEnv (lit "/tmp/turbod")).TempDir (lit "turbod")).getLast? ≠ some Separator ∧
    (getUnixSocket (sampleEnv (lit "/tmp/turbod")) (lit "/a")).length = 11 + 29 ∧
    (getUnixSocket (sampleEnv (lit "/tmp/turbod")) (lit "/a")).length ≤ 108 :=
  ⟨by decide, by decide, by decide,
    (C12_socket_path_length_absolute_clean_temp_dir (sampleEnv (lit "/tmp/turbod")) (lit "/a")
      (by decide) (by decide) (by decide)).2.2.1,
    (C12_socket_path_length_absolute_clean_temp_dir (sampleEnv (lit "/tmp/turbod")) (lit "/a")
      (by decide) (by decide) (by decide)).2.2.2 (by decide)⟩

/-- C13: `getLogFilePath` returns a nil error for every repository root, so
`GetClient` never takes its log-path error branch (it runs as its body does on
a log-path result without error), and either `os.Executable` failed and the
result is a nil client with that error and no call to the connector, or
`os.Executable` succeeded and the connector is called once. -/
theorem C13_getLogFilePath_never_fails
    {Logger Opts Client Context Error : Type} (env : Env)
    (host : Host Logger Opts Client Context Error)
    (ctx : Context) (repoRoot : AbsoluteSystemPath) (logger : Logger)
    (turboVersion : GoString) (opts : Opts) :
    (getLogFilePath Error env repoRoot).2 = none ∧
    GetClient env host ctx repoRoot logger turboVersion opts
      = GetClientFrom host (getUnixSocket env repoRoot) (getPidFile env repoRoot)
          ((getLogFilePath Error env repoRoot).1, none) host.Executable
          ctx logger turboVersion opts ∧
    (((GetClient env host ctx repoRoot logger turboVersion opts).connectCalls = [] ∧
        (GetClient env host ctx repoRoot logger turboVersion opts).client = none ∧
        (GetClient env host ctx repoRoot logger turboVersion opts).err = host.Executable.2 ∧
        host.Executable.2.isSome = true) ∨
      ((GetClient env host ctx repoRoot logger turboVersion opts).connectCalls.length = 1 ∧
        host.Executable.2 = none)) := by
  refine ⟨rfl, rfl, ?_⟩
  cases h : host.Executable.2 with
  | some e =>
    left
    simp [GetClient, GetClientFrom, getLogFilePath, h]
  | none =>
    right
    simp [GetClient, GetClientFrom, getLogFilePath, h]

end Daemon
